import Mathlib

/-!
Verification of the NinjaScan INS/GPS post-processor (GPS_SP.h and its matrix
library) against its natural-language specification.

Real numbers (`double`, `float_sylph_t`) are embedded as `ℚ`; machine loops
over `unsigned int` indices are embedded as folds over `List.range`-style
lists of `ℕ`; fallible code (`throw MatrixException`, `exit(-1)`) is embedded
as `Except`.  Division is the total `ℚ` division (division by zero yields 0
in the embedding, where the C++ double arithmetic would yield inf/NaN; every
theorem whose conclusion depends on a quotient carries a nonzero-divisor
hypothesis, and counterexamples that pass through a division by zero are
accompanied by a comment).
-/

/- ===================== Shared time arithmetic ===================== -/

/-- Number of seconds in one GPS week, `60 * 60 * 24 * 7` (written
`60 * 60 * 7 * 24` at the time-update site); both spellings equal 604800. -/
def oneWeek : ℤ := 60 * 60 * 24 * 7

/-- Packet::interval_rollover (GPS_SP.h:1174-1178) reduced to its numeric core:
`delta - floor(delta / one_week + 0.5) * one_week`, mapping `delta` into
`[-one_week/2, +one_week/2)`. -/
def wrapDelta (delta : ℚ) : ℚ :=
  delta - ((⌊delta / (oneWeek : ℚ) + 0.5⌋ : ℤ) : ℚ) * (oneWeek : ℚ)

/-- Packet::interval_rollover between two time stamps: the wrapped value of
`another.itow - itow` (positive when `another` is later). -/
def interval_rollover (itow anotherItow : ℚ) : ℚ :=
  wrapDelta (anotherItow - itow)

/- ===================== Packets (GPS_SP.h:1148-1233) ===================== -/

/-- Vector3 of the support library, restricted to its three components. -/
structure Vec3 where
  x : ℚ
  y : ℚ
  z : ℚ
deriving DecidableEq

instance : Inhabited Vec3 := ⟨⟨0, 0, 0⟩⟩

/-- Componentwise sum of two Vector3 values. -/
def Vec3.add (a b : Vec3) : Vec3 := ⟨a.x + b.x, a.y + b.y, a.z + b.z⟩

/-- Scalar multiple of a Vector3 (`v * c`). -/
def Vec3.smul (a : Vec3) (c : ℚ) : Vec3 := ⟨a.x * c, a.y * c, a.z * c⟩

/-- A_Packet: inertial data with a time stamp (GPS_SP.h:1194-1197). -/
structure A_Packet where
  itow : ℚ
  accel : Vec3
  omega : Vec3
deriving DecidableEq

instance : Inhabited A_Packet := ⟨⟨0, default, default⟩⟩

/-- M_Packet: magnetic sensor data with a time stamp (GPS_SP.h:1216-1218). -/
structure M_Packet where
  itow : ℚ
  mag : Vec3
deriving DecidableEq

instance : Inhabited M_Packet := ⟨⟨0, default⟩⟩

/-- GPS_Solution fields consumed by the fusion controller. -/
structure GPS_Solution where
  latitude : ℚ
  longitude : ℚ
  height : ℚ
  v_n : ℚ
  v_e : ℚ
  v_d : ℚ
  sigma_2d : ℚ
  sigma_height : ℚ
  sigma_vel : ℚ
deriving DecidableEq

/-- G_Packet: a GPS fix with a time stamp (GPS_SP.h:1202-1211); the lever
arm, when present, only selects which `correct` overload is invoked. -/
structure G_Packet where
  itow : ℚ
  solution : GPS_Solution
  has_lever_arm : Bool
deriving DecidableEq

/- ============ Option parsing: sync strategy (GPS_SP.h:762-766, 887-892) ============ -/

/-- Navigation strategies enum of `Options` (GPS_SP.h:762-766). -/
inductive SyncStrategy
  | OFFLINE
  | BACK_PROPAGATION
  | REALTIME
deriving DecidableEq

/-- Modelled from the spec: `GlobalOptions::get_key` / `get_value` / `is_true`
(util.h, outside src/) split a command-line token `--key[=value]` into its
key and the truth value of its value; per the spec's command-line surface a
boolean option given without a value counts as true. -/
structure SpecTok where
  key : String
  value_true : Bool

/-- Options::check_spec, restricted to the `--back_propagate` and `--realtime`
branches (GPS_SP.h:887-892).  Each branch sets the single strategy enum when
its value is true and reports the token as consumed; neither branch can fail.
`exit(-1)` paths of other options (e.g. a malformed `--calendar_time`) are the
`Except.error` values of the result type; the two modelled branches never
produce one. -/
def checkSpecSync (strategy : SyncStrategy) (tok : SpecTok) :
    Except Int (SyncStrategy × Bool) :=
  if tok.key = "back_propagate" then
    Except.ok ((if tok.value_true then SyncStrategy.BACK_PROPAGATION else strategy), true)
  else if tok.key = "realtime" then
    Except.ok ((if tok.value_true then SyncStrategy.REALTIME else strategy), true)
  else
    Except.ok (strategy, false)

/-- Sequential processing of command-line tokens through
`Options::check_spec` (main, GPS_SP.h:2887), keeping the strategy state. -/
def parseSync (st : SyncStrategy) (toks : List SpecTok) : Except Int SyncStrategy :=
  toks.foldlM (fun s tok => do pure (← checkSpecSync s tok).1) st

/- ============ 1-PPS glitch reduction (GPS_SP.h:2027-2031, 2250-2254) ============ -/

/-- Modelled from the spec: `GlobalOptions::reduce_1pps_sync_error` (util.h,
outside src/); §4.5 of the spec lists the 1-PPS glitch reduction as an active
duty of the controller, so the flag is modelled as enabled. -/
def reduce_1pps_sync_error : Bool := true

/-- Itow adjustment shared verbatim by `AHandler::operator()`
(GPS_SP.h:2027-2031) and `MHandler::operator()` (GPS_SP.h:2250-2254):
when the reduction flag is set and the difference to the previous delivered
itow lies in [1, 2), one second is subtracted from the fetched itow. -/
def handler_reduce_itow (reduce : Bool) (prevItow fetched : ℚ) : ℚ :=
  if reduce then
    (if 1 ≤ fetched - prevItow ∧ fetched - prevItow < 2 then fetched - 1 else fetched)
  else fetched

/-- AHandler's itow computation before `packet_latest.itow = itow` (GPS_SP.h:2027-2032). -/
def AHandler_itow (reduce : Bool) (prevItow fetched : ℚ) : ℚ :=
  handler_reduce_itow reduce prevItow fetched

/-- MHandler's itow computation before `packet_latest.itow = itow` (GPS_SP.h:2250-2255). -/
def MHandler_itow (reduce : Bool) (prevItow fetched : ℚ) : ℚ :=
  handler_reduce_itow reduce prevItow fetched

/- ===================== Theorems for claims C1 and C7 ===================== -/

/-- Claim C1, counterexample: the command line carrying both
`--back_propagate` and `--realtime` (each set true) is NOT rejected by option
parsing; processing completes with `Except.ok` and the engine proceeds with
the REALTIME strategy (the conflict check the claim asserts does not exist in
`Options::check_spec`). -/
theorem both_sync_flags_not_rejected :
    parseSync SyncStrategy.OFFLINE
      [⟨"back_propagate", true⟩, ⟨"realtime", true⟩] =
      Except.ok SyncStrategy.REALTIME := by
  rfl

/-- Claim C1, amended: processing `--back_propagate` and `--realtime` (each
true) never produces a configuration error; both tokens are consumed and the
single strategy enum ends as whichever flag was processed last, regardless of
the strategy previously configured. -/
theorem sync_flags_last_one_wins (s : SyncStrategy) :
    parseSync s [⟨"back_propagate", true⟩, ⟨"realtime", true⟩] =
        Except.ok SyncStrategy.REALTIME ∧
      parseSync s [⟨"realtime", true⟩, ⟨"back_propagate", true⟩] =
        Except.ok SyncStrategy.BACK_PROPAGATION ∧
      (checkSpecSync s ⟨"back_propagate", true⟩).isOk = true ∧
      (checkSpecSync s ⟨"realtime", true⟩).isOk = true := by
  refine ⟨rfl, rfl, rfl, rfl⟩

/-- Claim C7: for consecutive A packets (and likewise M packets) whose itow
difference lies in [1, 2) seconds, exactly one second is subtracted from the
newly fetched itow before the packet is delivered. -/
theorem pps_glitch_subtracts_one_second (prevItow fetched : ℚ)
    (h1 : 1 ≤ fetched - prevItow) (h2 : fetched - prevItow < 2) :
    AHandler_itow reduce_1pps_sync_error prevItow fetched = fetched - 1 ∧
      MHandler_itow reduce_1pps_sync_error prevItow fetched = fetched - 1 := by
  constructor <;>
    simp [AHandler_itow, MHandler_itow, handler_reduce_itow,
      reduce_1pps_sync_error, h1, h2]

/-- Witness for the C7 theorem at prevItow = 0, fetched = 3/2. -/
theorem pps_glitch_subtracts_one_second_witness :
    AHandler_itow reduce_1pps_sync_error 0 (3/2) = 3/2 - 1 ∧
      MHandler_itow reduce_1pps_sync_error 0 (3/2) = 3/2 - 1 :=
  pps_glitch_subtracts_one_second 0 (3/2)
    (by with_unfolding_all decide) (by with_unfolding_all decide)

/- ============ Fusion controller: INS_GPS_NAV::Helper (GPS_SP.h:2405-2750) ============ -/

/-- Status enum of the Helper (GPS_SP.h:2408-2414), ordered as in the source. -/
inductive NavStatus
  | UNINITIALIZED
  | JUST_INITIALIZED
  | TIME_UPDATED
  | MEASUREMENT_UPDATED
  | WAITING_UPDATE
deriving DecidableEq

/-- Numeric value of a status, used for the enum comparisons
`status >= JUST_INITIALIZED` of the source. -/
def NavStatus.toNat : NavStatus → ℕ
  | .UNINITIALIZED => 0
  | .JUST_INITIALIZED => 1
  | .TIME_UPDATED => 2
  | .MEASUREMENT_UPDATED => 3
  | .WAITING_UPDATE => 4

/-- Initial-attitude mode enum (GPS_SP.h:793). -/
inductive AttitudeMode
  | NOT_GIVEN
  | YAW_ONLY
  | YAW_PITCH
  | FULL_GIVEN
deriving DecidableEq

/-- Options::gps_threshold_t with its constructor defaults 20, 10, 100
(GPS_SP.h:776-783). -/
structure GpsThreshold where
  init_acc_2d : ℚ
  init_acc_v : ℚ
  cont_acc_2d : ℚ

/-- Constructor defaults of gps_threshold_t (GPS_SP.h:780-782). -/
def defaultGpsThreshold : GpsThreshold := ⟨20, 10, 100⟩

/-- The slice of `Options` consumed by the Helper. -/
structure HelperOpts where
  gps_threshold : GpsThreshold
  initial_attitude_mode : AttitudeMode
  yaw_correct_with_mag_when_speed_less_than_ms : ℚ
  sync_strategy : SyncStrategy

/-- Defaults from the `Options` constructor (GPS_SP.h:822-839). -/
def defaultHelperOpts : HelperOpts :=
  ⟨defaultGpsThreshold, AttitudeMode.NOT_GIVEN, 5, SyncStrategy.OFFLINE⟩

/-- Helper constructor's packet threshold (GPS_SP.h:2498):
`options.initial_attitude.mode == FULL_GIVEN ? 1 : 0x10`. -/
def min_a_packets_for_init (o : HelperOpts) : ℕ :=
  if o.initial_attitude_mode = AttitudeMode.FULL_GIVEN then 1 else 0x10

/-- PacketBuffer::push (GPS_SP.h:2424-2427): drop the front element when the
buffer is full, then append at the back. -/
def pbPush {α : Type} (maxSize : ℕ) (buf : List α) (p : α) : List α :=
  (if maxSize ≤ buf.length then buf.drop 1 else buf) ++ [p]

/-- Observable Helper state.  `clock` and the two counters stand for the
externally-defined filter (INS.h / INS_GPS2.h, outside src/): `clock` is the
internal clock the spec's invariant speaks about, advanced by each performed
`nav.update`; `mu_count` counts performed `nav.correct` calls; `yaw_count`
counts performed `nav.correct_yaw` calls. -/
structure Helper where
  status : NavStatus
  clock : ℚ
  mu_count : ℕ
  yaw_count : ℕ
  recent_a : List A_Packet
  recent_m : List M_Packet

/-- Helper construction (GPS_SP.h:2496-2502): uninitialized, empty buffers. -/
def Helper.init : Helper := ⟨NavStatus.UNINITIALIZED, 0, 0, 0, [], []⟩

/-- Test `status >= JUST_INITIALIZED` of the source. -/
def Helper.initialized (h : Helper) : Prop :=
  NavStatus.JUST_INITIALIZED.toNat ≤ h.status.toNat

instance (h : Helper) : Decidable h.initialized := by
  unfold Helper.initialized; infer_instance

/-- Helper::compass (GPS_SP.h:2492-2494): push an M packet (buffer size 0x10). -/
def Helper.compass (h : Helper) (m : M_Packet) : Helper :=
  { h with recent_m := pbPush 0x10 h.recent_m m }

/-- Roll-over compensation of the protected time update (GPS_SP.h:2566-2569):
one week is added when `deltaT <= -(one_week / 2)`. -/
def rollAdjust (deltaT : ℚ) : ℚ :=
  if deltaT ≤ -(((oneWeek / 2 : ℤ)) : ℚ) then deltaT + (oneWeek : ℚ) else deltaT

theorem rollAdjust_eq (deltaT : ℚ) :
    rollAdjust deltaT = if deltaT ≤ -302400 then deltaT + 604800 else deltaT := by
  have h1 : -(((oneWeek / 2 : ℤ)) : ℚ) = -302400 := by norm_num [oneWeek]
  have h2 : ((oneWeek : ℤ) : ℚ) = 604800 := by norm_num [oneWeek]
  rw [rollAdjust, h1, h2]

/-- Protected Helper::time_update(a_packet, deltaT) (GPS_SP.h:2564-2580):
roll-over compensation by one week when `deltaT <= -(one_week / 2)`, then the
interval gate `deltaT <= 0 || deltaT >= INTERVAL_THRESHOLD` (threshold 10)
that silently drops the update; otherwise `nav.update(accel, omega, deltaT)`
(external, modelled as the clock advance) and `status = TIME_UPDATED`. -/
def Helper.time_update_dT (h : Helper) (_a : A_Packet) (deltaT : ℚ) : Helper :=
  if rollAdjust deltaT ≤ 0 ∨ 10 ≤ rollAdjust deltaT then h
  else { h with clock := h.clock + rollAdjust deltaT, status := NavStatus.TIME_UPDATED }

/-- Public Helper::time_update(a_packet) (GPS_SP.h:2588-2600): when
initialized, run the protected time update with the raw interval from the
previous (most recently buffered) A packet; in every case push the packet
into `recent_a` (capacity `max(min_a_packets_for_init, 0x100)`,
GPS_SP.h:2499).  The source reads `recent_a.buf.back()` which is only reached
with a nonempty buffer; the empty case is modelled as a no-op. -/
def Helper.time_update (o : HelperOpts) (h : Helper) (a : A_Packet) : Helper :=
  let h' :=
    if h.initialized then
      match h.recent_a.getLast? with
      | some prev => h.time_update_dT a (a.itow - prev.itow)
      | none => h
    else h
  { h' with recent_a := pbPush (max (min_a_packets_for_init o) 0x100) h'.recent_a a }

/-- Helper::time_update_after_initialization (GPS_SP.h:2603-2615): walk the
A buffer backwards until a packet not strictly after the G packet under the
roll-over interval is found, then replay the remaining suffix forward with
chained raw intervals starting from the G packet itself. -/
def Helper.time_update_after_initialization (h : Helper) (g : G_Packet) : Helper :=
  let suffix := (h.recent_a.reverse.takeWhile
    (fun a => decide (0 < interval_rollover g.itow a.itow))).reverse
  (suffix.foldl (fun (st : Helper × ℚ) a =>
    (st.1.time_update_dT a (a.itow - st.2), a.itow)) (h, g.itow)).1

/-- Helper::initialize (GPS_SP.h:2617-2676).  The attitude estimate (averaged
accelerometer, optional magnetic yaw via `get_mag`) and the position/velocity
seeding go into the external INS state (`ins_gps->initPosition` etc., outside
src/); the observable effect kept by the model is `status = JUST_INITIALIZED`
and the internal clock seeded at the accepted G packet's time. -/
def Helper.initializeFrom (h : Helper) (g : G_Packet) : Helper :=
  { h with status := NavStatus.JUST_INITIALIZED, clock := g.itow }

/-- Helper::time_update_before_measurement_update (GPS_SP.h:2678-2687): for
the realtime specialization a no-op; otherwise, when the G packet is ahead of
the last A packet, one protected time update over the gap. -/
def Helper.time_update_before_mu (o : HelperOpts) (h : Helper) (advanceT : ℚ) : Helper :=
  if o.sync_strategy = SyncStrategy.REALTIME then h
  else if advanceT ≤ 0 then h
  else
    match h.recent_a.getLast? with
    | some back => h.time_update_dT back advanceT
    | none => h

/-- Helper::measurement_update (GPS_SP.h:2695-2749).  Gate order follows the
source: first the continual-accuracy gate `sigma_2d >= cont_acc_2d` (skip
everything), then the initialized path (advance to the G time, perform
`nav.correct` — external, counted — and optionally the magnetic yaw
correction, set MEASUREMENT_UPDATED), else the initialization gate
(buffer count, time synchronization, and the two initial-accuracy
thresholds) guarding `initialize` plus the replay of buffered A packets. -/
def Helper.measurement_update (o : HelperOpts) (h : Helper) (g : G_Packet) : Helper :=
  if o.gps_threshold.cont_acc_2d ≤ g.solution.sigma_2d then h
  else if h.initialized then
    let gps_advance :=
      match h.recent_a.getLast? with
      | some back => g.itow - back.itow
      | none => 0
    let h1 := h.time_update_before_mu o gps_advance
    let h2 := { h1 with mu_count := h1.mu_count + 1 }
    let h3 :=
      if h2.recent_m ≠ [] ∧ 0 < o.yaw_correct_with_mag_when_speed_less_than_ms ∧
          g.solution.v_n ^ 2 + g.solution.v_e ^ 2 <
            o.yaw_correct_with_mag_when_speed_less_than_ms ^ 2 then
        { h2 with yaw_count := h2.yaw_count + 1 }
      else h2
    { h3 with status := NavStatus.MEASUREMENT_UPDATED }
  else if min_a_packets_for_init o ≤ h.recent_a.length ∧
      |(h.recent_a.headI).itow - g.itow| < (0.1 : ℚ) * (h.recent_a.length : ℚ) ∧
      g.solution.sigma_2d ≤ o.gps_threshold.init_acc_2d ∧
      g.solution.sigma_height ≤ o.gps_threshold.init_acc_v then
    (h.initializeFrom g).time_update_after_initialization g
  else h

/- ============ Magnetic sample interpolation (GPS_SP.h:1013-1027, 2436-2458) ============ -/

/-- Loop of NAV::nearest (GPS_SP.h:1021-1025) for group size 2: starting at
window head `k` with `i` elements remaining, advance while more than 2 remain
and the element after the head is still before the requested time. -/
def nearestLoop (buf : List M_Packet) (itow : ℚ) : ℕ → ℕ → ℕ
  | 0, k => k
  | i + 1, k =>
    if 2 < i + 1 then
      (if itow ≤ (buf.getD (k + 1) default).itow then k else nearestLoop buf itow i (k + 1))
    else k

/-- NAV::nearest with group_size = 2 (as called by Helper::get_mag): index of
the selected two-element interpolation window. -/
def nearest2 (buf : List M_Packet) (itow : ℚ) : ℕ :=
  nearestLoop buf itow buf.length 0

/-- Helper::get_mag (GPS_SP.h:2436-2458): with fewer than two buffered M
packets return the unit vector (1, 0, 0) ("heading is north"); otherwise
linearly interpolate between the two packets of the nearest window, clamping
the weight pair to (1, 0) when weight_a exceeds 3 and to (0, 1) when weight_b
exceeds 3. -/
def Helper.get_mag (h : Helper) (itow : ℚ) : Vec3 :=
  if h.recent_m.length < 2 then ⟨1, 0, 0⟩
  else
    let k := nearest2 h.recent_m itow
    let a := h.recent_m.getD k default
    let b := h.recent_m.getD (k + 1) default
    let weight_a := (b.itow - itow) / (b.itow - a.itow)
    let weight_b := 1 - weight_a
    let w : ℚ × ℚ :=
      if 3 < weight_a then (1, 0)
      else if 3 < weight_b then (0, 1)
      else (weight_a, weight_b)
    (a.mag.smul w.1).add (b.mag.smul w.2)
/- ============ Helper lemmas about status preservation ============ -/

theorem time_update_dT_status (h : Helper) (a : A_Packet) (d : ℚ) :
    (h.time_update_dT a d).status = h.status ∨
      (h.time_update_dT a d).status = NavStatus.TIME_UPDATED := by
  unfold Helper.time_update_dT
  split
  · exact Or.inl rfl
  · exact Or.inr rfl

theorem time_update_dT_initialized (h : Helper) (a : A_Packet) (d : ℚ)
    (hi : h.initialized) : (h.time_update_dT a d).initialized := by
  rcases time_update_dT_status h a d with hs | hs <;>
    · rw [Helper.initialized, hs]
      first
      | exact hi
      | simp [NavStatus.toNat]

theorem tuai_fold_initialized (l : List A_Packet) (p : Helper × ℚ)
    (hi : p.1.initialized) :
    ((l.foldl (fun (st : Helper × ℚ) a =>
      (st.1.time_update_dT a (a.itow - st.2), a.itow)) p).1).initialized := by
  induction l generalizing p with
  | nil => exact hi
  | cons a t ih =>
    rw [List.foldl_cons]
    exact ih (p.1.time_update_dT a (a.itow - p.2), a.itow)
      (time_update_dT_initialized p.1 a (a.itow - p.2) hi)

theorem tuai_initialized (h : Helper) (g : G_Packet) (hi : h.initialized) :
    (h.time_update_after_initialization g).initialized :=
  tuai_fold_initialized _ _ hi

theorem initialize_initialized (h : Helper) (g : G_Packet) :
    (h.initializeFrom g).initialized := by
  simp [Helper.initializeFrom, Helper.initialized, NavStatus.toNat]

/- ===================== Theorem for claim C2 ===================== -/

/-- Claim C2: for an A packet arriving once the filter is initialized, with
`ΔT` the raw interval from the previous A packet and `rollAdjust ΔT` its
roll-over adjustment (one week of 604800 s added exactly when
`ΔT ≤ -302400`), the time update is dropped — internal clock and status
unchanged — when the adjusted interval is `≤ 0` or `≥ 10`, and otherwise is
performed, advancing the internal clock by the adjusted interval, which lies
in `(0, 10]`. -/
theorem time_update_interval_gate (o : HelperOpts) (h : Helper)
    (a prev : A_Packet) (hinit : h.initialized)
    (hlast : h.recent_a.getLast? = some prev) :
    (rollAdjust (a.itow - prev.itow) =
      (if a.itow - prev.itow ≤ -302400 then a.itow - prev.itow + 604800
        else a.itow - prev.itow)) ∧
    (rollAdjust (a.itow - prev.itow) ≤ 0 ∨ 10 ≤ rollAdjust (a.itow - prev.itow) →
      (h.time_update o a).clock = h.clock ∧ (h.time_update o a).status = h.status) ∧
    (0 < rollAdjust (a.itow - prev.itow) → rollAdjust (a.itow - prev.itow) < 10 →
      (h.time_update o a).clock = h.clock + rollAdjust (a.itow - prev.itow) ∧
      (h.time_update o a).status = NavStatus.TIME_UPDATED ∧
      0 < rollAdjust (a.itow - prev.itow) ∧ rollAdjust (a.itow - prev.itow) ≤ 10) := by
  have heq : h.time_update o a =
      { h.time_update_dT a (a.itow - prev.itow) with
        recent_a := pbPush (max (min_a_packets_for_init o) 0x100)
          (h.time_update_dT a (a.itow - prev.itow)).recent_a a } := by
    unfold Helper.time_update
    rw [if_pos hinit, hlast]
  refine ⟨rollAdjust_eq _, ?_, ?_⟩
  · intro hc
    rw [heq]
    unfold Helper.time_update_dT
    rw [if_pos hc]
    exact ⟨rfl, rfl⟩
  · intro hc hlt
    rw [heq]
    unfold Helper.time_update_dT
    rw [if_neg (by push_neg; exact ⟨hc, hlt⟩)]
    exact ⟨rfl, rfl, hc, le_of_lt hlt⟩

/-- Witness for the C2 theorem: an initialized helper whose previous A packet
is at itow 0 receives an A packet at itow 1/2; the adjusted interval is 1/2
and the clock advances from 7 to 7 + 1/2. -/
theorem time_update_interval_gate_witness :
    (0:ℚ) < rollAdjust ((1:ℚ)/2 - 0) ∧
      ((Helper.mk NavStatus.TIME_UPDATED 7 0 0 [⟨0, default, default⟩] []).time_update
          defaultHelperOpts ⟨1/2, default, default⟩).clock = 7 + rollAdjust ((1:ℚ)/2 - 0) := by
  have hpos : (0:ℚ) < rollAdjust ((1:ℚ)/2 - 0) := by
    rw [rollAdjust_eq]; with_unfolding_all decide
  have hlt : rollAdjust ((1:ℚ)/2 - 0) < 10 := by
    rw [rollAdjust_eq]; with_unfolding_all decide
  have hmain := time_update_interval_gate defaultHelperOpts
    (Helper.mk NavStatus.TIME_UPDATED 7 0 0 [⟨0, default, default⟩] [])
    ⟨1/2, default, default⟩ ⟨0, default, default⟩
    (by with_unfolding_all decide) rfl
  exact ⟨hpos, (hmain.2.2 hpos hlt).1⟩

/- ===================== Theorems for claims C3 and C9 ===================== -/

/-- Case analysis of Helper::measurement_update for an uninitialized helper:
either the packet changes nothing, or the full initialization gate held and
the helper went through initialize followed by the buffered-A replay. -/
theorem measurement_update_uninit_cases (o : HelperOpts) (h : Helper)
    (g : G_Packet) (hni : ¬ h.initialized) :
    h.measurement_update o g = h ∨
    ((min_a_packets_for_init o ≤ h.recent_a.length ∧
        |(h.recent_a.headI).itow - g.itow| < (0.1 : ℚ) * (h.recent_a.length : ℚ) ∧
        g.solution.sigma_2d ≤ o.gps_threshold.init_acc_2d ∧
        g.solution.sigma_height ≤ o.gps_threshold.init_acc_v) ∧
      h.measurement_update o g = (h.initializeFrom g).time_update_after_initialization g) := by
  unfold Helper.measurement_update
  split_ifs with hs hgate
  · exact Or.inl rfl
  · exact Or.inr ⟨hgate, rfl⟩
  · exact Or.inl rfl

/-- Claim C3: (a) once the filter is initialized, a G packet whose sigma_2d
reaches cont_acc_2d (default 100 m) is skipped entirely — the Helper state is
returned unchanged; (b) while uninitialized, initialization can only have
happened when the G packet satisfied sigma_2d ≤ init_acc_2d (default 20 m),
sigma_height ≤ init_acc_v (default 10 m), and the oldest buffered A packet's
itow is within 0.1 times the A-buffer size of the G packet's itow. -/
theorem measurement_update_gates (o : HelperOpts) (h : Helper) (g : G_Packet) :
    (h.initialized → o.gps_threshold.cont_acc_2d ≤ g.solution.sigma_2d →
      h.measurement_update o g = h) ∧
    (¬ h.initialized → (h.measurement_update o g).initialized →
      g.solution.sigma_2d ≤ o.gps_threshold.init_acc_2d ∧
      g.solution.sigma_height ≤ o.gps_threshold.init_acc_v ∧
      |(h.recent_a.headI).itow - g.itow| < (0.1 : ℚ) * (h.recent_a.length : ℚ)) := by
  constructor
  · intro _ hs
    unfold Helper.measurement_update
    rw [if_pos hs]
  · intro hni hinit
    rcases measurement_update_uninit_cases o h g hni with heq | ⟨hgate, heq⟩
    · rw [heq] at hinit; exact absurd hinit hni
    · exact ⟨hgate.2.2.1, hgate.2.2.2, hgate.2.1⟩

/-- Witness for the C3 theorem: (a) an initialized helper skips a G packet of
sigma_2d 200 under the default continual threshold 100 (state returned
unchanged); (b) an uninitialized helper holding 16 A packets that did get
initialized by an accurate G packet indeed received one meeting the three
gate conditions. -/
theorem measurement_update_gates_witness :
    ((Helper.mk NavStatus.TIME_UPDATED 7 0 0 [⟨0, default, default⟩] []).measurement_update
        defaultHelperOpts ⟨0, ⟨0, 0, 0, 0, 0, 0, 200, 5, 1⟩, false⟩ =
      Helper.mk NavStatus.TIME_UPDATED 7 0 0 [⟨0, default, default⟩] []) ∧
    ((5:ℚ) ≤ defaultHelperOpts.gps_threshold.init_acc_2d ∧
      (5:ℚ) ≤ defaultHelperOpts.gps_threshold.init_acc_v ∧
      |(((List.replicate 16 (⟨0, default, default⟩ : A_Packet)).headI).itow - (0:ℚ))| <
        (0.1 : ℚ) * ((List.replicate 16 (⟨0, default, default⟩ : A_Packet)).length : ℚ)) := by
  constructor
  · exact (measurement_update_gates defaultHelperOpts
      (Helper.mk NavStatus.TIME_UPDATED 7 0 0 [⟨0, default, default⟩] [])
      ⟨0, ⟨0, 0, 0, 0, 0, 0, 200, 5, 1⟩, false⟩).1
      (by with_unfolding_all decide) (by with_unfolding_all decide)
  · exact (measurement_update_gates defaultHelperOpts
      (Helper.mk NavStatus.UNINITIALIZED 0 0 0
        (List.replicate 16 (⟨0, default, default⟩ : A_Packet)) [])
      ⟨0, ⟨0, 0, 0, 0, 0, 0, 5, 5, 1⟩, false⟩).2
      (by with_unfolding_all decide) (by with_unfolding_all decide)

/-- Claim C9: the filter initializes from a G packet only when at least
`min_a_packets_for_init` A packets are buffered — 1 when a full initial
attitude (yaw, pitch and roll) was supplied, 16 (0x10) otherwise — and a G
packet arriving below that threshold leaves the Helper state (in particular
its uninitialized status) unchanged. -/
theorem init_requires_min_a_packets (o : HelperOpts) (h : Helper) (g : G_Packet) :
    (¬ h.initialized → (h.measurement_update o g).initialized →
      (if o.initial_attitude_mode = AttitudeMode.FULL_GIVEN then 1 else 16) ≤
        h.recent_a.length) ∧
    (¬ h.initialized → h.recent_a.length < min_a_packets_for_init o →
      h.measurement_update o g = h) := by
  constructor
  · intro hni hinit
    rcases measurement_update_uninit_cases o h g hni with heq | ⟨hgate, heq⟩
    · rw [heq] at hinit; exact absurd hinit hni
    · have := hgate.1
      rwa [min_a_packets_for_init] at this
  · intro hni hlen
    rcases measurement_update_uninit_cases o h g hni with heq | ⟨hgate, heq⟩
    · exact heq
    · exact absurd hgate.1 (not_le.mpr hlen)

/-- Witness for the C9 theorem: an uninitialized helper holding 15 A packets
(one short of the default threshold 16) is left unchanged by a G packet that
meets every accuracy condition. -/
theorem init_requires_min_a_packets_witness :
    (Helper.mk NavStatus.UNINITIALIZED 0 0 0
        (List.replicate 15 (⟨0, default, default⟩ : A_Packet)) []).measurement_update
      defaultHelperOpts ⟨0, ⟨0, 0, 0, 0, 0, 0, 5, 5, 1⟩, false⟩ =
    Helper.mk NavStatus.UNINITIALIZED 0 0 0
      (List.replicate 15 (⟨0, default, default⟩ : A_Packet)) [] :=
  (init_requires_min_a_packets defaultHelperOpts
    (Helper.mk NavStatus.UNINITIALIZED 0 0 0
      (List.replicate 15 (⟨0, default, default⟩ : A_Packet)) [])
    ⟨0, ⟨0, 0, 0, 0, 0, 0, 5, 5, 1⟩, false⟩).2
    (by with_unfolding_all decide) (by with_unfolding_all decide)

/- ===================== Theorem for claim C10 ===================== -/

theorem nearestLoop_le (buf : List M_Packet) (itow : ℚ) :
    ∀ i k, 2 ≤ i → nearestLoop buf itow i k + 2 ≤ k + i := by
  intro i
  induction i with
  | zero => intro k h2; omega
  | succ i ih =>
    intro k h2
    rw [nearestLoop]
    split_ifs with hgt hbrk
    · omega
    · have := ih (k + 1) (by omega)
      omega
    · omega

theorem nearest2_le (buf : List M_Packet) (itow : ℚ) (h2 : 2 ≤ buf.length) :
    nearest2 buf itow + 1 < buf.length := by
  have := nearestLoop_le buf itow buf.length 0 h2
  rw [nearest2]
  omega

theorem vec3_smul_one_add_smul_zero (a b : Vec3) : (a.smul 1).add (b.smul 0) = a := by
  cases a; cases b
  simp [Vec3.smul, Vec3.add]

theorem vec3_smul_zero_add_smul_one (a b : Vec3) : (a.smul 0).add (b.smul 1) = b := by
  cases a; cases b
  simp [Vec3.smul, Vec3.add]

/-- Claim C10: with fewer than two buffered M packets, Helper::get_mag yields
the constant unit vector (1, 0, 0) — a field pointing exactly north — rather
than refusing; with two or more, it linearly interpolates over the adjacent
pair of the nearest window (the affine weights sum to 1), except that a
weight exceeding 3 clamps the pair to (1, 0) resp. (0, 1), i.e. to the pure
sample. -/
theorem get_mag_interpolation (h : Helper) (itow : ℚ) :
    (h.recent_m.length < 2 → h.get_mag itow = ⟨1, 0, 0⟩) ∧
    (2 ≤ h.recent_m.length →
      nearest2 h.recent_m itow + 1 < h.recent_m.length ∧
      ((3 : ℚ) < ((h.recent_m.getD (nearest2 h.recent_m itow + 1) default).itow - itow) /
          ((h.recent_m.getD (nearest2 h.recent_m itow + 1) default).itow -
            (h.recent_m.getD (nearest2 h.recent_m itow) default).itow) →
        h.get_mag itow = (h.recent_m.getD (nearest2 h.recent_m itow) default).mag) ∧
      (¬ ((3 : ℚ) < ((h.recent_m.getD (nearest2 h.recent_m itow + 1) default).itow - itow) /
          ((h.recent_m.getD (nearest2 h.recent_m itow + 1) default).itow -
            (h.recent_m.getD (nearest2 h.recent_m itow) default).itow)) →
       (3 : ℚ) < 1 - ((h.recent_m.getD (nearest2 h.recent_m itow + 1) default).itow - itow) /
          ((h.recent_m.getD (nearest2 h.recent_m itow + 1) default).itow -
            (h.recent_m.getD (nearest2 h.recent_m itow) default).itow) →
        h.get_mag itow = (h.recent_m.getD (nearest2 h.recent_m itow + 1) default).mag) ∧
      (¬ ((3 : ℚ) < ((h.recent_m.getD (nearest2 h.recent_m itow + 1) default).itow - itow) /
          ((h.recent_m.getD (nearest2 h.recent_m itow + 1) default).itow -
            (h.recent_m.getD (nearest2 h.recent_m itow) default).itow)) →
       ¬ ((3 : ℚ) < 1 - ((h.recent_m.getD (nearest2 h.recent_m itow + 1) default).itow - itow) /
          ((h.recent_m.getD (nearest2 h.recent_m itow + 1) default).itow -
            (h.recent_m.getD (nearest2 h.recent_m itow) default).itow)) →
        (h.get_mag itow =
          ((h.recent_m.getD (nearest2 h.recent_m itow) default).mag.smul
              (((h.recent_m.getD (nearest2 h.recent_m itow + 1) default).itow - itow) /
                ((h.recent_m.getD (nearest2 h.recent_m itow + 1) default).itow -
                  (h.recent_m.getD (nearest2 h.recent_m itow) default).itow))).add
            ((h.recent_m.getD (nearest2 h.recent_m itow + 1) default).mag.smul
              (1 - ((h.recent_m.getD (nearest2 h.recent_m itow + 1) default).itow - itow) /
                ((h.recent_m.getD (nearest2 h.recent_m itow + 1) default).itow -
                  (h.recent_m.getD (nearest2 h.recent_m itow) default).itow))) ∧
         (((h.recent_m.getD (nearest2 h.recent_m itow + 1) default).itow - itow) /
              ((h.recent_m.getD (nearest2 h.recent_m itow + 1) default).itow -
                (h.recent_m.getD (nearest2 h.recent_m itow) default).itow) +
            (1 - ((h.recent_m.getD (nearest2 h.recent_m itow + 1) default).itow - itow) /
              ((h.recent_m.getD (nearest2 h.recent_m itow + 1) default).itow -
                (h.recent_m.getD (nearest2 h.recent_m itow) default).itow)) = 1)))) := by
  constructor
  · intro hlt
    unfold Helper.get_mag
    rw [if_pos hlt]
  · intro h2
    refine ⟨nearest2_le _ _ h2, ?_, ?_, ?_⟩ <;>
      · intro hwa
        first
        | intro hwb
        | skip
        unfold Helper.get_mag
        rw [if_neg (not_lt.mpr h2)]
        dsimp only
        first
        | (rw [if_pos hwa]; exact vec3_smul_one_add_smul_zero _ _)
        | (rw [if_neg hwa, if_pos hwb]; exact vec3_smul_zero_add_smul_one _ _)
        | (rw [if_neg hwa, if_neg hwb]; exact ⟨rfl, by ring⟩)

/-- Witness for the C10 theorem: the empty M buffer yields (1, 0, 0), and on
a two-packet buffer at itows 0 and 1 queried at itow 1/2 the selected window
is in bounds. -/
theorem get_mag_interpolation_witness :
    Helper.init.get_mag 0 = ⟨1, 0, 0⟩ ∧
      nearest2 [(⟨0, ⟨5, 0, 0⟩⟩ : M_Packet), ⟨1, ⟨0, 5, 0⟩⟩] (1/2) + 1 <
        (Helper.mk NavStatus.UNINITIALIZED 0 0 0 []
          [⟨0, ⟨5, 0, 0⟩⟩, ⟨1, ⟨0, 5, 0⟩⟩]).recent_m.length := by
  refine ⟨(get_mag_interpolation Helper.init 0).1 (by with_unfolding_all decide), ?_⟩
  exact ((get_mag_interpolation
    (Helper.mk NavStatus.UNINITIALIZED 0 0 0 [] [⟨0, ⟨5, 0, 0⟩⟩, ⟨1, ⟨0, 5, 0⟩⟩])
    (1/2)).2 (by with_unfolding_all decide)).1

/- ============ Offline packet buffer (GPS_SP.h:2806-2840, 1174-1181) ============ -/

/-- Packet as seen by the sort buffer: only the time stamp takes part in
ordering and delivery order (Packet base class, GPS_SP.h:1148-1182). -/
structure Pkt where
  itow : ℚ
deriving DecidableEq

/-- Packet::compare_rollover (GPS_SP.h:1179-1181):
`a->interval_rollover(*b) > 0`, the strict "a before b" comparison handed to
std::stable_sort. -/
def compare_rollover (a b : Pkt) : Bool :=
  decide (0 < interval_rollover a.itow b.itow)

/-- Insertion step of the stable-sort model: the new element passes every
element it strictly precedes under `comp` and lands after the others (so
equivalent elements keep their arrival order). -/
def insertComp {α : Type} (comp : α → α → Bool) (x : α) : List α → List α
  | [] => [x]
  | y :: ys => if comp x y then x :: y :: ys else y :: insertComp comp x ys

/-- Model of std::stable_sort (as called in buffer_t::sort_and_apply):
insertion of the elements in arrival order.  The C++ standard specifies
std::stable_sort only through its postcondition — sorted by `comp` and
stable — which determines the output uniquely for a strict-weak-order
`comp`; stable insertion sort realizes exactly that output. -/
def stableSort {α : Type} (comp : α → α → Bool) (l : List α) : List α :=
  l.foldl (fun acc x => insertComp comp x acc) []

/-- buffer_t::sort_and_apply (GPS_SP.h:2810-2818): stable-sort the pool by
compare_rollover, deliver (apply) the first `packets` elements in order, and
keep the rest pooled.  The pair is (remaining pool, delivered so far). -/
def sort_and_apply (pool out : List Pkt) (packets : ℕ) : List Pkt × List Pkt :=
  let s := stableSort compare_rollover pool
  (s.drop packets, out ++ s.take packets)

/-- buffer_t::sort_and_apply2 (GPS_SP.h:2819-2822): below 0x200 pooled
packets do nothing, otherwise sort and apply 0x100 of them. -/
def sort_and_apply2 (pool out : List Pkt) : List Pkt × List Pkt :=
  if pool.length < 0x200 then (pool, out) else sort_and_apply pool out 0x100

/-- buffer_t::update (GPS_SP.h:2827-2836): push the arriving packet at the
back of the pool, then sort_and_apply2. -/
def bufUpdate (st : List Pkt × List Pkt) (p : Pkt) : List Pkt × List Pkt :=
  sort_and_apply2 (st.1 ++ [p]) st.2

/-- The buffer state after an input stream has been pushed packet by packet
(loop(), GPS_SP.h:2837-2840), starting from the empty buffer. -/
def bufRun (ps : List Pkt) : List Pkt × List Pkt :=
  ps.foldl bufUpdate ([], [])

/-- Full delivery order of an input stream: the stream is pushed packet by
packet, and at end of stream the destructor flushes the remaining pool with
`sort_and_apply(packet_pool.size())` (GPS_SP.h:2824-2826). -/
def bufDeliver (ps : List Pkt) : List Pkt :=
  ((bufRun ps).1.length |> sort_and_apply (bufRun ps).1 (bufRun ps).2).2

/-- Non-decreasing time stamps along the delivered sequence. -/
def nonDecreasingItow (l : List Pkt) : Prop :=
  l.Chain' (fun a b => a.itow ≤ b.itow)

instance (l : List Pkt) : Decidable (nonDecreasingItow l) := by
  unfold nonDecreasingItow; infer_instance

/- ============ Stable-sort lemmas ============ -/

theorem mem_insertComp {α : Type} (comp : α → α → Bool) (x z : α) :
    ∀ l : List α, z ∈ insertComp comp x l ↔ z = x ∨ z ∈ l := by
  intro l
  induction l with
  | nil => simp [insertComp]
  | cons y ys ih =>
    rw [insertComp]
    split_ifs with hc
    · constructor
      · intro hz
        rcases List.mem_cons.mp hz with hz | hz
        · exact Or.inl hz
        · exact Or.inr hz
      · intro hz
        rcases hz with hz | hz
        · exact List.mem_cons.mpr (Or.inl hz)
        · exact List.mem_cons.mpr (Or.inr hz)
    · constructor
      · intro hz
        rcases List.mem_cons.mp hz with hz | hz
        · exact Or.inr (List.mem_cons.mpr (Or.inl hz))
        · rcases (ih.mp hz) with hz | hz
          · exact Or.inl hz
          · exact Or.inr (List.mem_cons.mpr (Or.inr hz))
      · intro hz
        rcases hz with hz | hz
        · exact List.mem_cons.mpr (Or.inr (ih.mpr (Or.inl hz)))
        · rcases List.mem_cons.mp hz with hz | hz
          · exact List.mem_cons.mpr (Or.inl hz)
          · exact List.mem_cons.mpr (Or.inr (ih.mpr (Or.inr hz)))

theorem length_insertComp {α : Type} (comp : α → α → Bool) (x : α) :
    ∀ l : List α, (insertComp comp x l).length = l.length + 1 := by
  intro l
  induction l with
  | nil => rfl
  | cons y ys ih =>
    rw [insertComp]
    split_ifs with hc
    · simp
    · simp [ih]

theorem length_stableSort_aux {α : Type} (comp : α → α → Bool) :
    ∀ (l acc : List α),
      (l.foldl (fun acc x => insertComp comp x acc) acc).length =
        acc.length + l.length := by
  intro l
  induction l with
  | nil => intro acc; simp
  | cons x t ih =>
    intro acc
    rw [List.foldl_cons, ih, length_insertComp, List.length_cons]
    omega

theorem length_stableSort {α : Type} (comp : α → α → Bool) (l : List α) :
    (stableSort comp l).length = l.length := by
  rw [stableSort, length_stableSort_aux]
  simp

theorem insertComp_append {α : Type} (comp : α → α → Bool) (x : α) :
    ∀ l : List α, (∀ y ∈ l, comp x y = false) → insertComp comp x l = l ++ [x] := by
  intro l
  induction l with
  | nil => intro _; rfl
  | cons y ys ih =>
    intro hall
    rw [insertComp, if_neg (by simp [hall y (List.mem_cons_self y ys)]),
      ih (fun z hz => hall z (List.mem_cons_of_mem y hz))]
    rfl

theorem stableSort_sorted_id_aux {α : Type} (comp : α → α → Bool) :
    ∀ (l acc : List α), (∀ x ∈ l, ∀ y ∈ acc, comp x y = false) →
      l.Pairwise (fun a b => comp b a = false) →
      l.foldl (fun acc x => insertComp comp x acc) acc = acc ++ l := by
  intro l
  induction l with
  | nil => intro acc _ _; simp
  | cons x t ih =>
    intro acc hcross hpair
    rw [List.foldl_cons,
      insertComp_append comp x acc (hcross x (List.mem_cons_self x t)),
      ih (acc ++ [x]) ?_ (List.Pairwise.of_cons hpair)]
    · simp
    · intro z hz y hy
      rcases List.mem_append.mp hy with hy | hy
      · exact hcross z (List.mem_cons_of_mem x hz) y hy
      · rw [List.mem_singleton.mp hy]
        exact (List.pairwise_cons.mp hpair).1 z hz

/-- A list already sorted for `comp` (no adjacent-or-later pair out of order)
is a fixed point of the stable sort. -/
theorem stableSort_sorted_id {α : Type} (comp : α → α → Bool) (l : List α)
    (hpair : l.Pairwise (fun a b => comp b a = false)) :
    stableSort comp l = l := by
  rw [stableSort, stableSort_sorted_id_aux comp l [] (by simp) hpair]
  simp

/- ============ Roll-over comparison within half a week ============ -/

theorem wrapDelta_eq_self (delta : ℚ) (h1 : -302400 ≤ delta) (h2 : delta < 302400) :
    wrapDelta delta = delta := by
  have hw : ((oneWeek : ℤ) : ℚ) = 604800 := by norm_num [oneWeek]
  have hpos : (0:ℚ) < 604800 := by norm_num
  have hfl : ⌊delta / (604800:ℚ) + 0.5⌋ = 0 := by
    rw [Int.floor_eq_zero_iff]
    constructor
    · have : (-(1:ℚ)/2) ≤ delta / 604800 := by
        rw [div_le_div_iff₀ (by norm_num) hpos]
        linarith
      have h05 : (0.5 : ℚ) = 1/2 := by norm_num
      simp only [h05]
      linarith
    · have : delta / 604800 < 1/2 := by
        rw [div_lt_iff₀ hpos]
        linarith
      have h05 : (0.5 : ℚ) = 1/2 := by norm_num
      simp only [h05]
      linarith
  rw [wrapDelta, hw, hfl]
  norm_num

/-- Within half a week, compare_rollover is exactly the strict itow order. -/
theorem compare_rollover_eq_lt (a b : Pkt) (hwin : |a.itow - b.itow| < 302400) :
    compare_rollover a b = decide (a.itow < b.itow) := by
  rcases abs_sub_lt_iff.mp hwin with ⟨hab, hba⟩
  rw [compare_rollover, interval_rollover,
    wrapDelta_eq_self (b.itow - a.itow) (by linarith) (by linarith)]
  by_cases hlt : a.itow < b.itow
  · rw [decide_eq_true (by linarith : (0:ℚ) < b.itow - a.itow), decide_eq_true hlt]
  · rw [decide_eq_false (by push_neg at hlt ⊢; linarith :
      ¬ (0:ℚ) < b.itow - a.itow), decide_eq_false hlt]

/- ============ Buffer pipeline lemmas ============ -/

/-- Pushing a stream that keeps the pool under 0x200 packets never triggers a
sort: the pool just grows in arrival order. -/
theorem bufRun_no_trigger :
    ∀ (l : List Pkt) (pool out : List Pkt), pool.length + l.length < 0x200 →
      l.foldl bufUpdate (pool, out) = (pool ++ l, out) := by
  intro l
  induction l with
  | nil => intro pool out _; simp
  | cons p t ih =>
    intro pool out hlen
    rw [List.foldl_cons]
    have hstep : bufUpdate (pool, out) p = (pool ++ [p], out) := by
      rw [bufUpdate, sort_and_apply2, if_pos]
      simp only [List.length_append, List.length_cons, List.length_nil]
      simp at hlen
      omega
    rw [hstep, ih (pool ++ [p]) out (by simp at hlen ⊢; omega)]
    simp

/-- Sortedness of the insertion result, for elements within half a week of
each other. -/
theorem insertComp_sorted (x : Pkt) :
    ∀ acc : List Pkt, acc.Pairwise (fun a b => a.itow ≤ b.itow) →
      (∀ y ∈ acc, |x.itow - y.itow| < 302400) →
      (insertComp compare_rollover x acc).Pairwise (fun a b => a.itow ≤ b.itow) := by
  intro acc
  induction acc with
  | nil => intro _ _; simp [insertComp]
  | cons y ys ih =>
    intro hsorted hwin
    rw [insertComp]
    split_ifs with hc
    · rw [List.pairwise_cons]
      refine ⟨?_, hsorted⟩
      intro z hz
      have hxy : x.itow < y.itow := by
        have := compare_rollover_eq_lt x y (hwin y (List.mem_cons_self y ys))
        rw [this] at hc
        exact of_decide_eq_true hc
      rcases List.mem_cons.mp hz with hz | hz
      · rw [hz]; linarith
      · have := (List.pairwise_cons.mp hsorted).1 z hz
        linarith
    · rw [List.pairwise_cons]
      constructor
      · intro z hz
        rcases (mem_insertComp compare_rollover x z ys).mp hz with hz | hz
        · have hyx : ¬ x.itow < y.itow := by
            have := compare_rollover_eq_lt x y (hwin y (List.mem_cons_self y ys))
            rw [this] at hc
            intro hcon
            exact absurd (decide_eq_true hcon) (by simp [hc])
          rw [hz]
          push_neg at hyx
          exact hyx
        · exact (List.pairwise_cons.mp hsorted).1 z hz
      · exact ih (List.Pairwise.of_cons hsorted)
          (fun z hz => hwin z (List.mem_cons_of_mem y hz))

/-- Stable sort yields a list sorted by itow, provided the elements pairwise
lie within half a week. -/
theorem stableSort_sorted_aux :
    ∀ (l acc : List Pkt), acc.Pairwise (fun a b => a.itow ≤ b.itow) →
      (∀ x ∈ l, ∀ y ∈ acc, |x.itow - y.itow| < 302400) →
      (∀ x ∈ l, ∀ y ∈ l, |x.itow - y.itow| < 302400) →
      (l.foldl (fun acc x => insertComp compare_rollover x acc) acc).Pairwise
        (fun a b => a.itow ≤ b.itow) := by
  intro l
  induction l with
  | nil => intro acc hs _ _; exact hs
  | cons x t ih =>
    intro acc hs hcross hwin
    rw [List.foldl_cons]
    refine ih (insertComp compare_rollover x acc)
      (insertComp_sorted x acc hs (hcross x (List.mem_cons_self x t))) ?_ ?_
    · intro z hz y hy
      rcases (mem_insertComp compare_rollover x y acc).mp hy with hy | hy
      · rw [hy]
        exact hwin z (List.mem_cons_of_mem x hz) x (List.mem_cons_self x t)
      · exact hcross z (List.mem_cons_of_mem x hz) y hy
    · intro z hz y hy
      exact hwin z (List.mem_cons_of_mem x hz) y (List.mem_cons_of_mem x hy)

theorem stableSort_sorted (l : List Pkt)
    (hwin : ∀ x ∈ l, ∀ y ∈ l, |x.itow - y.itow| < 302400) :
    (stableSort compare_rollover l).Pairwise (fun a b => a.itow ≤ b.itow) := by
  rw [stableSort]
  exact stableSort_sorted_aux l [] (by simp) (by simp) hwin

/- ===================== Theorems for claim C4 ===================== -/

/-- Claim C4, counterexample: the OFFLINE sort buffer does not deliver every
input stream in itow order.  A stream of 0x200 packets at itow 100000
triggers a sort-and-apply of the first 0x100 of them; a late packet at itow
99995 arriving afterwards can only be delivered after them, so the delivered
timestamps decrease from 100000 to 99995 at the boundary. -/
theorem offline_buffer_not_always_sorted :
    ¬ nonDecreasingItow
      (bufDeliver (List.replicate 0x200 ⟨100000⟩ ++ [⟨99995⟩])) := by
  have hcomp_refl : compare_rollover ⟨100000⟩ ⟨100000⟩ = false := by
    rw [compare_rollover_eq_lt _ _ (by norm_num)]
    simp
  have hcomp_late : compare_rollover ⟨99995⟩ ⟨100000⟩ = true := by
    rw [compare_rollover_eq_lt _ _ (by norm_num)]
    simp only [decide_eq_true_eq]
    norm_num
  have hsort512 :
      stableSort compare_rollover (List.replicate 0x200 (⟨100000⟩ : Pkt)) =
        List.replicate 0x200 ⟨100000⟩ :=
    stableSort_sorted_id _ _ (List.pairwise_replicate.mpr (Or.inr hcomp_refl))
  have hsort256 :
      stableSort compare_rollover (List.replicate 0x100 (⟨100000⟩ : Pkt)) =
        List.replicate 0x100 ⟨100000⟩ :=
    stableSort_sorted_id _ _ (List.pairwise_replicate.mpr (Or.inr hcomp_refl))
  have hstep : bufUpdate (([] : List Pkt) ++ List.replicate 0x1FF ⟨100000⟩, []) ⟨100000⟩ =
      (List.replicate 0x100 ⟨100000⟩, List.replicate 0x100 ⟨100000⟩) := by
    rw [bufUpdate, sort_and_apply2, if_neg ?hlen]
    case hlen =>
      rw [List.length_append, List.length_append, List.length_nil,
        List.length_replicate]
      decide
    rw [sort_and_apply]
    have hcat : (([] : List Pkt) ++ List.replicate 0x1FF ⟨100000⟩) ++ [⟨100000⟩] =
        List.replicate 0x200 ⟨100000⟩ := by
      rw [List.nil_append, ← List.replicate_succ']
    rw [hcat, hsort512]
    dsimp only
    rw [List.drop_replicate, List.take_replicate]
    norm_num
  have hstep2 : bufUpdate
      (List.replicate 0x100 (⟨100000⟩ : Pkt), List.replicate 0x100 ⟨100000⟩) ⟨99995⟩ =
      (List.replicate 0x100 ⟨100000⟩ ++ [⟨99995⟩], List.replicate 0x100 ⟨100000⟩) := by
    rw [bufUpdate, sort_and_apply2, if_pos ?hlen2]
    case hlen2 =>
      rw [List.length_append, List.length_replicate]
      decide
  have hrun : bufRun (List.replicate 0x200 ⟨100000⟩ ++ [⟨99995⟩]) =
      (List.replicate 0x100 ⟨100000⟩ ++ [⟨99995⟩], List.replicate 0x100 ⟨100000⟩) := by
    rw [bufRun, List.foldl_append]
    have h511 : (List.replicate 0x200 (⟨100000⟩ : Pkt)) =
        List.replicate 0x1FF ⟨100000⟩ ++ [⟨100000⟩] := List.replicate_succ' 0x1FF _
    rw [h511, List.foldl_append,
      bufRun_no_trigger (List.replicate 0x1FF ⟨100000⟩) [] []
        (by rw [List.length_nil, List.length_replicate]; decide)]
    simp only [List.foldl_cons, List.foldl_nil]
    rw [hstep, hstep2]
  rw [bufDeliver, hrun]
  dsimp only
  rw [sort_and_apply]
  have hsortfin :
      stableSort compare_rollover (List.replicate 0x100 (⟨100000⟩ : Pkt) ++ [⟨99995⟩]) =
        ⟨99995⟩ :: List.replicate 0x100 ⟨100000⟩ := by
    rw [stableSort, List.foldl_append]
    have haux : List.foldl (fun acc x => insertComp compare_rollover x acc) []
        (List.replicate 0x100 (⟨100000⟩ : Pkt)) =
          stableSort compare_rollover (List.replicate 0x100 ⟨100000⟩) := rfl
    rw [haux, hsort256, List.foldl_cons, List.foldl_nil]
    have h255 : (List.replicate 0x100 (⟨100000⟩ : Pkt)) =
        ⟨100000⟩ :: List.replicate 0xFF ⟨100000⟩ := rfl
    rw [h255, insertComp, if_pos hcomp_late]
  dsimp only
  rw [hsortfin]
  intro hchain
  have hlen : (List.replicate 0x100 (⟨100000⟩ : Pkt) ++ [(⟨99995⟩ : Pkt)]).length = 0x101 := by
    rw [List.length_append, List.length_replicate]
    rfl
  rw [hlen] at hchain
  have htake : List.take 0x101 (⟨99995⟩ :: List.replicate 0x100 (⟨100000⟩ : Pkt)) =
      ⟨99995⟩ :: List.replicate 0x100 ⟨100000⟩ := by
    refine List.take_of_length_le ?_
    rw [List.length_cons, List.length_replicate]
  rw [htake] at hchain
  rw [nonDecreasingItow, List.chain'_append] at hchain
  have hlast : (List.replicate 0x100 (⟨100000⟩ : Pkt)).getLast? = some ⟨100000⟩ := by
    rw [List.replicate_succ' 0xFF, List.getLast?_concat]
  have := hchain.2.2 ⟨100000⟩ (by rw [hlast]; rfl) ⟨99995⟩ rfl
  norm_num at this

/-- Claim C4, amended: the OFFLINE/BACK_PROPAGATION buffer delivers the
stable sort by compare_rollover of the whole stream — hence non-decreasing
timestamps — for every stream that stays within the sort window: fewer than
0x200 packets (so no partial batch is flushed early) whose itows pairwise lie
within half a week (so the roll-over comparison is an order).  Longer streams
can deliver a late packet out of order (see the counterexample). -/
theorem offline_buffer_small_stream_sorted (ps : List Pkt)
    (hlen : ps.length < 0x200)
    (hwin : ∀ p ∈ ps, ∀ q ∈ ps, |p.itow - q.itow| < 302400) :
    bufDeliver ps = stableSort compare_rollover ps ∧
      nonDecreasingItow (bufDeliver ps) := by
  have hrun : bufRun ps = (ps, []) := by
    rw [bufRun]
    have := bufRun_no_trigger ps [] [] (by rw [List.length_nil]; omega)
    rwa [List.nil_append] at this
  have hdel : bufDeliver ps = stableSort compare_rollover ps := by
    rw [bufDeliver, hrun]
    dsimp only
    rw [sort_and_apply]
    dsimp only
    rw [List.nil_append,
      List.take_of_length_le (by rw [length_stableSort])]
  refine ⟨hdel, ?_⟩
  rw [hdel, nonDecreasingItow]
  exact (stableSort_sorted ps hwin).chain'

/-- Witness for the amended C4 theorem: the three-packet stream with itows
3, 1, 2 is delivered as its stable sort, with non-decreasing itows. -/
theorem offline_buffer_small_stream_sorted_witness :
    bufDeliver [⟨3⟩, ⟨1⟩, ⟨2⟩] = stableSort compare_rollover [⟨3⟩, ⟨1⟩, ⟨2⟩] ∧
      nonDecreasingItow (bufDeliver [⟨3⟩, ⟨1⟩, ⟨2⟩]) :=
  offline_buffer_small_stream_sorted [⟨3⟩, ⟨1⟩, ⟨2⟩]
    (by with_unfolding_all decide) (by with_unfolding_all decide)

/- ============ Matrix kernel, embedded over unsigned-int indices ============ -/

/-- Square matrices of the C++ matrix library are embedded as functions
`ℕ → ℕ → ℚ` (the library indexes with unsigned int); entries outside
`[0, n) × [0, n)` are irrelevant.  `toM` restricts such a function to the
mathematical `n × n` matrix. -/
def toM (n : ℕ) (A : ℕ → ℕ → ℚ) : Matrix (Fin n) (Fin n) ℚ :=
  Matrix.of fun i j => A i.1 j.1

/-- Single element write `M(r, c) = v` of the C++ storage. -/
def mupd (f : ℕ → ℕ → ℚ) (r c : ℕ) (v : ℚ) : ℕ → ℕ → ℚ :=
  fun i j => if i = r ∧ j = c then v else f i j

theorem mupd_same (f : ℕ → ℕ → ℚ) (r c : ℕ) (v : ℚ) : mupd f r c v r c = v := by
  simp [mupd]

theorem mupd_ne (f : ℕ → ℕ → ℚ) (r c : ℕ) (v : ℚ) (i j : ℕ)
    (h : ¬ (i = r ∧ j = c)) : mupd f r c v i j = f i j := by
  simp only [mupd, if_neg h]

/-- Matrix::isSymmetric (GPS_SP.h:4030-4039): all strictly-upper entries
equal their mirror. -/
def isSymmetric (n : ℕ) (A : ℕ → ℕ → ℚ) : Bool :=
  (List.range n).all fun i =>
    (List.range' (i + 1) (n - (i + 1))).all fun j => decide (A i j = A j i)

theorem isSymmetric_spec (n : ℕ) (A : ℕ → ℕ → ℚ) (h : isSymmetric n A = true) :
    ∀ i j, i < n → j < n → i < j → A i j = A j i := by
  intro i j hi hj hij
  rw [isSymmetric, List.all_eq_true] at h
  have hrow := h i (List.mem_range.mpr hi)
  rw [List.all_eq_true] at hrow
  refine of_decide_eq_true (hrow j ?_)
  rw [List.mem_range']
  exact ⟨j - (i + 1), by omega, by omega⟩

/- ============ decomposeUD (GPS_SP.h:4480-4499) ============ -/

/-- State carried by decomposeUD: the working copy `P` of the input and the
result halves `U` and `D` of the 2n-column result matrix, which the
constructor `Matrix(rows, columns)` zero-initializes. -/
structure UDState where
  P : ℕ → ℕ → ℚ
  U : ℕ → ℕ → ℚ
  D : ℕ → ℕ → ℚ

/-- Innermost loop body: `P(k, j) -= U(k, i) * D(i, i) * U(j, i)`
(GPS_SP.h:4492). -/
def udStepK (i j : ℕ) (st : UDState) (k : ℕ) : UDState :=
  { st with P := mupd st.P k j (st.P k j - st.U k i * st.D i i * st.U j i) }

/-- Middle loop body (GPS_SP.h:4489-4494): `U(j, i) = P(j, i) / D(i, i)`,
then the k-loop over `0 <= k <= j`. -/
def udStepJ (i : ℕ) (st : UDState) (j : ℕ) : UDState :=
  (List.range (j + 1)).foldl (udStepK i j)
    { st with U := mupd st.U j i (st.P j i / st.D i i) }

/-- Outer loop body (GPS_SP.h:4486-4495): `D(i, i) = P(i, i); U(i, i) = 1`,
then the j-loop over `0 <= j < i`. -/
def udStepI (st : UDState) (i : ℕ) : UDState :=
  (List.range i).foldl (udStepJ i)
    { st with D := mupd st.D i i (st.P i i), U := mupd st.U i i 1 }

/-- Full loop of decomposeUD: `for (int i = rows()-1; i >= 0; i--)`, starting
from `P = copy of input`, `U = D = 0`. -/
def udLoop (n : ℕ) (A : ℕ → ℕ → ℚ) : UDState :=
  ((List.range n).reverse).foldl udStepI ⟨A, fun _ _ => 0, fun _ _ => 0⟩

/-- Matrix::decomposeUD (GPS_SP.h:4480-4499): with do_check, a non-symmetric
input throws MatrixException("not symmetric"); otherwise the U and D halves
of the result matrix are produced by the loop above. -/
def decomposeUD (n : ℕ) (A : ℕ → ℕ → ℚ) (do_check : Bool) :
    Except String ((ℕ → ℕ → ℚ) × (ℕ → ℕ → ℚ)) :=
  if do_check ∧ ¬ isSymmetric n A = true then Except.error "not symmetric"
  else Except.ok ((udLoop n A).U, (udLoop n A).D)

/- ============ Characterization of the decomposeUD loops ============ -/

theorem udStepK_fold_char (i j : ℕ) :
    ∀ (l : List ℕ) (st : UDState), l.Nodup →
      ((l.foldl (udStepK i j) st).U = st.U) ∧
      ((l.foldl (udStepK i j) st).D = st.D) ∧
      (∀ k' j', (l.foldl (udStepK i j) st).P k' j' =
        if k' ∈ l ∧ j' = j then st.P k' j' - st.U k' i * st.D i i * st.U j i
        else st.P k' j') := by
  intro l
  induction l with
  | nil =>
    intro st _
    refine ⟨rfl, rfl, ?_⟩
    intro k' j'
    simp
  | cons k0 t ih =>
    intro st hnd
    rw [List.foldl_cons]
    have hk0t : k0 ∉ t := (List.nodup_cons.mp hnd).1
    obtain ⟨hU, hD, hP⟩ := ih (udStepK i j st k0) (List.nodup_cons.mp hnd).2
    have hU0 : (udStepK i j st k0).U = st.U := rfl
    have hD0 : (udStepK i j st k0).D = st.D := rfl
    refine ⟨hU.trans hU0, hD.trans hD0, ?_⟩
    intro k' j'
    rw [hP k' j', hU0, hD0]
    by_cases hmem : k' ∈ t ∧ j' = j
    · rw [if_pos hmem, if_pos ⟨List.mem_cons_of_mem k0 hmem.1, hmem.2⟩]
      have : (udStepK i j st k0).P k' j' = st.P k' j' := by
        rw [udStepK]
        exact mupd_ne _ _ _ _ _ _ (fun hc => hk0t (hc.1 ▸ hmem.1))
      rw [this]
    · rw [if_neg hmem]
      by_cases hk0 : k' = k0 ∧ j' = j
      · rw [if_pos ⟨List.mem_cons.mpr (Or.inl hk0.1), hk0.2⟩, udStepK, hk0.1, hk0.2]
        exact mupd_same _ _ _ _
      · rw [if_neg ?hcc, udStepK]
        case hcc =>
          intro hc
          rcases List.mem_cons.mp hc.1 with hh | hh
          · exact hk0 ⟨hh, hc.2⟩
          · exact hmem ⟨hh, hc.2⟩
        exact mupd_ne _ _ _ _ _ _ (fun hc => hk0 ⟨hc.1, hc.2⟩)

/-- Effect of one iteration of the middle loop (index j of step i): U gains
entry (j, i), and column j of P (rows 0..j) is reduced, using the just-set
`U(j, i) = P(j, i) / D(i, i)` and the previously set `U(k, i)`. -/
theorem udStepJ_char (i j : ℕ) (st : UDState) :
    ((udStepJ i st j).D = st.D) ∧
    (∀ r c, (udStepJ i st j).U r c =
      if r = j ∧ c = i then st.P j i / st.D i i else st.U r c) ∧
    (∀ k j', (udStepJ i st j).P k j' =
      if k ≤ j ∧ j' = j then
        st.P k j' -
          (if k = j then st.P j i / st.D i i else st.U k i) * st.D i i *
            (st.P j i / st.D i i)
      else st.P k j') := by
  obtain ⟨hU, hD, hP⟩ := udStepK_fold_char i j (List.range (j + 1))
    { st with U := mupd st.U j i (st.P j i / st.D i i) } (List.nodup_range _)
  rw [udStepJ]
  dsimp only at hU hD hP
  refine ⟨hD, ?_, ?_⟩
  · intro r c
    rw [hU]
    by_cases hrc : r = j ∧ c = i
    · rw [hrc.1, hrc.2, mupd_same]
      simp
    · rw [mupd_ne _ _ _ _ _ _ hrc, if_neg hrc]
  · intro k j'
    rw [hP]
    by_cases hmem : k ∈ List.range (j + 1) ∧ j' = j
    · rw [if_pos hmem, if_pos ⟨Nat.lt_succ_iff.mp (List.mem_range.mp hmem.1), hmem.2⟩]
      have hUji : mupd st.U j i (st.P j i / st.D i i) j i = st.P j i / st.D i i :=
        mupd_same _ _ _ _
      rw [hUji]
      by_cases hkj : k = j
      · rw [if_pos hkj, hkj, mupd_same]
      · rw [if_neg hkj, mupd_ne _ _ _ _ _ _ (fun hc => hkj hc.1)]
    · rw [if_neg hmem, if_neg ?hcc]
      case hcc =>
        intro hc
        exact hmem ⟨List.mem_range.mpr (Nat.lt_succ_iff.mpr hc.1), hc.2⟩

/-- Effect of the whole middle loop, run over indices `t, t+1, ..., t+cnt-1`
(all below i), assuming the U entries below `t` of column i are already the
quotients of the corresponding (unchanged) P entries. -/
theorem udStepJ_fold_char (i : ℕ) :
    ∀ (cnt t : ℕ) (st : UDState), t + cnt ≤ i →
      (∀ k, k < t → st.U k i = st.P k i / st.D i i) →
      ((List.range' t cnt).foldl (udStepJ i) st).D = st.D ∧
      (∀ r c, ((List.range' t cnt).foldl (udStepJ i) st).U r c =
        if c = i ∧ t ≤ r ∧ r < t + cnt then st.P r i / st.D i i else st.U r c) ∧
      (∀ k j, ((List.range' t cnt).foldl (udStepJ i) st).P k j =
        if t ≤ j ∧ j < t + cnt ∧ k ≤ j then
          st.P k j - st.P k i / st.D i i * st.D i i * (st.P j i / st.D i i)
        else st.P k j) := by
  intro cnt
  induction cnt with
  | zero =>
    intro t st _ _
    refine ⟨rfl, ?_, ?_⟩
    · intro r c
      rw [if_neg (by omega)]
      rfl
    · intro k j
      rw [if_neg (by omega)]
      rfl
  | succ cnt ih =>
    intro t st hti hpre
    have hti' : t < i := by omega
    rw [List.range'_succ, List.foldl_cons]
    obtain ⟨hD1, hU1, hP1⟩ := udStepJ_char i t st
    have hst1Pcoli : ∀ k, (udStepJ i st t).P k i = st.P k i := by
      intro k
      rw [hP1, if_neg (by omega)]
    have hst1Dii : (udStepJ i st t).D i i = st.D i i := by rw [hD1]
    have hpre' : ∀ k, k < t + 1 →
        (udStepJ i st t).U k i = (udStepJ i st t).P k i / (udStepJ i st t).D i i := by
      intro k hk
      rw [hst1Pcoli, hst1Dii, hU1]
      by_cases hkt : k = t
      · rw [if_pos ⟨hkt, rfl⟩, hkt]
      · rw [if_neg (fun hc => hkt hc.1)]
        exact hpre k (by omega)
    obtain ⟨hD2, hU2, hP2⟩ := ih (t + 1) (udStepJ i st t) (by omega) hpre'
    refine ⟨hD2.trans hD1, ?_, ?_⟩
    · intro r c
      rw [hU2 r c, hst1Pcoli r, hst1Dii, hU1 r c]
      by_cases hc : c = i
      · by_cases h1 : t + 1 ≤ r ∧ r < t + 1 + cnt
        · rw [if_pos (show c = i ∧ t + 1 ≤ r ∧ r < t + 1 + cnt from ⟨hc, h1.1, h1.2⟩),
            if_pos (show c = i ∧ t ≤ r ∧ r < t + (cnt + 1) from ⟨hc, by omega, by omega⟩)]
        · by_cases hrt : r = t
          · rw [if_neg (show ¬(c = i ∧ t + 1 ≤ r ∧ r < t + 1 + cnt) from
                fun h => h1 ⟨h.2.1, h.2.2⟩),
              if_pos (show r = t ∧ c = i from ⟨hrt, hc⟩),
              if_pos (show c = i ∧ t ≤ r ∧ r < t + (cnt + 1) from
                ⟨hc, by omega, by omega⟩), hrt]
          · rw [if_neg (show ¬(c = i ∧ t + 1 ≤ r ∧ r < t + 1 + cnt) from
                fun h => h1 ⟨h.2.1, h.2.2⟩),
              if_neg (show ¬(r = t ∧ c = i) from fun h => hrt h.1),
              if_neg (show ¬(c = i ∧ t ≤ r ∧ r < t + (cnt + 1)) by intro h; omega)]
      · rw [if_neg (show ¬(c = i ∧ t + 1 ≤ r ∧ r < t + 1 + cnt) from fun h => hc h.1),
          if_neg (show ¬(r = t ∧ c = i) from fun h => hc h.2),
          if_neg (show ¬(c = i ∧ t ≤ r ∧ r < t + (cnt + 1)) from fun h => hc h.1)]
    · intro k j
      rw [hP2 k j, hst1Pcoli k, hst1Dii, hst1Pcoli j, hP1 k j]
      by_cases hj : j = t
      · rw [if_neg (show ¬(t + 1 ≤ j ∧ j < t + 1 + cnt ∧ k ≤ j) by intro h; omega)]
        by_cases hk : k ≤ t
        · rw [if_pos (show k ≤ t ∧ j = t from ⟨hk, hj⟩),
            if_pos (show t ≤ j ∧ j < t + (cnt + 1) ∧ k ≤ j from
              ⟨by omega, by omega, by omega⟩)]
          by_cases hkt : k = t
          · rw [if_pos hkt, hkt, hj]
          · rw [if_neg hkt, hpre k (by omega), hj]
        · rw [if_neg (show ¬(k ≤ t ∧ j = t) from fun h => hk h.1),
            if_neg (show ¬(t ≤ j ∧ j < t + (cnt + 1) ∧ k ≤ j) by intro h; omega)]
      · rw [if_neg (show ¬(k ≤ t ∧ j = t) from fun h => hj h.2)]
        by_cases hA : t + 1 ≤ j ∧ j < t + 1 + cnt ∧ k ≤ j
        · rw [if_pos hA,
            if_pos (show t ≤ j ∧ j < t + (cnt + 1) ∧ k ≤ j from
              ⟨by omega, by omega, hA.2.2⟩)]
        · rw [if_neg hA,
            if_neg (show ¬(t ≤ j ∧ j < t + (cnt + 1) ∧ k ≤ j) by intro h; omega)]

/-- Effect of one outer-loop step of decomposeUD, in closed form: with
`d = P(i, i)`, the step sets `D(i, i) = d`, `U(i, i) = 1`, fills column i of
U above the diagonal with `P(·, i) / d`, and subtracts the rank-one
contribution from the upper triangle of the columns left of i. -/
theorem udStepI_char (st : UDState) (i : ℕ) :
    (∀ r c, (udStepI st i).D r c =
      if r = i ∧ c = i then st.P i i else st.D r c) ∧
    (∀ r c, (udStepI st i).U r c =
      if c = i ∧ r < i then st.P r i / st.P i i
      else if r = i ∧ c = i then 1
      else st.U r c) ∧
    (∀ k j, (udStepI st i).P k j =
      if j < i ∧ k ≤ j then
        st.P k j - st.P k i / st.P i i * st.P i i * (st.P j i / st.P i i)
      else st.P k j) := by
  obtain ⟨hD, hU, hP⟩ := udStepJ_fold_char i i 0
    { st with D := mupd st.D i i (st.P i i), U := mupd st.U i i 1 }
    (by omega) (by intro k hk; omega)
  simp only [Nat.zero_add] at hU hP
  have hst1DiiPre : mupd st.D i i (st.P i i) i i = st.P i i := mupd_same _ _ _ _
  rw [hst1DiiPre] at hU hP
  unfold udStepI
  rw [List.range_eq_range' i]
  have hst1Dii : mupd st.D i i (st.P i i) i i = st.P i i := mupd_same _ _ _ _
  refine ⟨?_, ?_, ?_⟩
  · intro r c
    rw [hD]
    dsimp only
    by_cases hrc : r = i ∧ c = i
    · rw [if_pos hrc, hrc.1, hrc.2, mupd_same]
    · rw [if_neg hrc, mupd_ne _ _ _ _ _ _ hrc]
  · intro r c
    rw [hU r c]
    by_cases hci : c = i ∧ r < i
    · rw [if_pos ⟨hci.1, by omega, by omega⟩, if_pos hci]
    · rw [if_neg (show ¬(c = i ∧ 0 ≤ r ∧ r < i) by intro h; exact hci ⟨h.1, h.2.2⟩),
        if_neg hci]
      by_cases hdiag : r = i ∧ c = i
      · rw [if_pos hdiag, hdiag.1, hdiag.2, mupd_same]
      · rw [if_neg hdiag, mupd_ne _ _ _ _ _ _ hdiag]
  · intro k j
    rw [hP k j]
    by_cases hcond : j < i ∧ k ≤ j
    · rw [if_pos ⟨by omega, hcond.1, hcond.2⟩, if_pos hcond]
    · rw [if_neg (show ¬(0 ≤ j ∧ j < i ∧ k ≤ j) by intro h; exact hcond ⟨h.2.1, h.2.2⟩),
        if_neg hcond]

/-- Steps with indices below `b` leave the U columns at or beyond `b` and the
D diagonal at or beyond `b` untouched. -/
theorem udFold_stab (b : ℕ) :
    ∀ (l : List ℕ) (st : UDState), (∀ x ∈ l, x < b) →
      (∀ r c, b ≤ c → (l.foldl udStepI st).U r c = st.U r c) ∧
      (∀ m, b ≤ m → (l.foldl udStepI st).D m m = st.D m m) := by
  intro l
  induction l with
  | nil => intro st _; exact ⟨fun _ _ _ => rfl, fun _ _ => rfl⟩
  | cons i t ih =>
    intro st hb
    rw [List.foldl_cons]
    obtain ⟨ihU, ihD⟩ := ih (udStepI st i) (fun x hx => hb x (List.mem_cons_of_mem i hx))
    obtain ⟨hD', hU', _⟩ := udStepI_char st i
    have hib : i < b := hb i (List.mem_cons_self i t)
    constructor
    · intro r c hc
      rw [ihU r c hc, hU' r c,
        if_neg (show ¬(c = i ∧ r < i) by intro h; omega),
        if_neg (show ¬(r = i ∧ c = i) by intro h; omega)]
    · intro m hm
      rw [ihD m hm, hD' m m, if_neg (show ¬(m = i ∧ m = i) by intro h; omega)]

/-- Loop invariant of decomposeUD when the steps `n-1, ..., b` have been
performed: the still-active upper triangle of P carries the Schur residual of
the processed columns, the processed columns of U and D already reconstruct
the corresponding entries of A, U is unit-triangular where processed, and D
is diagonal. -/
def udInv (n : ℕ) (A : ℕ → ℕ → ℚ) (b : ℕ) (st : UDState) : Prop :=
  (∀ k j, k ≤ j → j < b → st.P k j =
    A k j - ∑ m ∈ Finset.Ico b n, st.U k m * st.D m m * st.U j m) ∧
  (∀ k j, k ≤ j → b ≤ j → j < n →
    (∑ m ∈ Finset.Ico b n, st.U k m * st.D m m * st.U j m) = A k j) ∧
  (∀ r c, c < r → st.U r c = 0) ∧
  (∀ m, b ≤ m → m < n → st.U m m = 1) ∧
  (∀ r c, ¬ r = c → st.D r c = 0)

theorem udInv_step (n : ℕ) (A : ℕ → ℕ → ℚ) (b : ℕ) (st : UDState)
    (hbn : b < n) (hinv : udInv n A (b + 1) st) (hd : st.P b b ≠ 0) :
    udInv n A b (udStepI st b) := by
  obtain ⟨i1, i2, i3, i4, i5⟩ := hinv
  obtain ⟨hD', hU', hP'⟩ := udStepI_char st b
  have hDbb : (udStepI st b).D b b = st.P b b := by
    rw [hD' b b, if_pos ⟨rfl, rfl⟩]
  have hDmm : ∀ m, ¬ m = b → (udStepI st b).D m m = st.D m m := by
    intro m hm
    rw [hD' m m, if_neg (fun h => hm h.1)]
  have hUcol : ∀ r, r < b → (udStepI st b).U r b = st.P r b / st.P b b := by
    intro r hr
    rw [hU' r b, if_pos ⟨rfl, hr⟩]
  have hUbb : (udStepI st b).U b b = 1 := by
    rw [hU' b b, if_neg (show ¬(b = b ∧ b < b) by omega), if_pos ⟨rfl, rfl⟩]
  have hUother : ∀ r c, ¬ c = b → (udStepI st b).U r c = st.U r c := by
    intro r c hc
    rw [hU' r c, if_neg (fun h => hc h.1), if_neg (fun h => hc h.2)]
  have hUlow : ∀ r, b < r → (udStepI st b).U r b = st.U r b := by
    intro r hr
    rw [hU' r b, if_neg (show ¬(b = b ∧ r < b) by omega),
      if_neg (show ¬(r = b ∧ b = b) by omega)]
  have hsum_rest : ∀ k j, (∑ m ∈ Finset.Ico (b + 1) n,
      (udStepI st b).U k m * (udStepI st b).D m m * (udStepI st b).U j m) =
      ∑ m ∈ Finset.Ico (b + 1) n, st.U k m * st.D m m * st.U j m := by
    intro k j
    refine Finset.sum_congr rfl ?_
    intro m hm
    have hmb : ¬ m = b := by
      have := (Finset.mem_Ico.mp hm).1
      omega
    rw [hUother k m hmb, hUother j m hmb, hDmm m hmb]
  refine ⟨?_, ?_, ?_, ?_, ?_⟩
  · intro k j hkj hjb
    rw [hP' k j, if_pos ⟨hjb, hkj⟩,
      Finset.sum_eq_sum_Ico_succ_bot hbn, hsum_rest k j, hDbb,
      hUcol k (by omega), hUcol j hjb, i1 k j hkj (by omega)]
    ring
  · intro k j hkj hbj hjn
    rw [Finset.sum_eq_sum_Ico_succ_bot hbn, hsum_rest k j, hDbb]
    by_cases hj : j = b
    · have hUjb : (udStepI st b).U j b = 1 := by rw [hj]; exact hUbb
      have hterm : (udStepI st b).U k b * st.P b b * (udStepI st b).U j b =
          st.P k b := by
        rw [hUjb, mul_one]
        by_cases hk : k = b
        · rw [hk, hUbb, one_mul]
        · rw [hUcol k (by omega), div_mul_cancel₀ _ hd]
      have htail : ∑ m ∈ Finset.Ico (b + 1) n, st.U k m * st.D m m * st.U j m
          = ∑ m ∈ Finset.Ico (b + 1) n, st.U k m * st.D m m * st.U b m := by
        rw [hj]
      rw [hterm, htail, i1 k b (by omega) (by omega), hj]
      ring
    · have hbj' : b < j := by omega
      have hUjb : (udStepI st b).U j b = 0 := by
        rw [hUlow j hbj']; exact i3 j b hbj'
      rw [hUjb, mul_zero, zero_add]
      exact i2 k j hkj (by omega) hjn
  · intro r c hcr
    by_cases hc : c = b
    · subst hc
      rw [hUlow r hcr]
      exact i3 r c hcr
    · rw [hUother r c hc]
      exact i3 r c hcr
  · intro m hbm hmn
    by_cases hm : m = b
    · subst hm
      exact hUbb
    · rw [hUother m m hm]
      exact i4 m (by omega) hmn
  · intro r c hrc
    rw [hD' r c, if_neg (by intro h; exact hrc (h.1.trans h.2.symm))]
    exact i5 r c hrc

theorem udInv_base (n : ℕ) (A : ℕ → ℕ → ℚ) :
    udInv n A n ⟨A, fun _ _ => 0, fun _ _ => 0⟩ := by
  refine ⟨?_, ?_, ?_, ?_, ?_⟩
  · intro k j _ _
    dsimp only
    rw [Finset.Ico_self, Finset.sum_empty, sub_zero]
  · intro k j _ hnj hjn
    omega
  · intro _ _ _; rfl
  · intro m hnm hmn; omega
  · intro _ _ _; rfl

theorem udInv_run (n : ℕ) (A : ℕ → ℕ → ℚ) :
    ∀ (b : ℕ) (st : UDState), b ≤ n → udInv n A b st →
      (∀ m, m < b → (((List.range b).reverse).foldl udStepI st).D m m ≠ 0) →
      udInv n A 0 (((List.range b).reverse).foldl udStepI st) := by
  intro b
  induction b with
  | zero => intro st _ hinv _; simpa using hinv
  | succ b ih =>
    intro st hbn hinv hD
    have hsplit : ((List.range (b + 1)).reverse : List ℕ) =
        b :: (List.range b).reverse := by
      rw [List.range_succ, List.reverse_append]
      rfl
    rw [hsplit, List.foldl_cons] at hD ⊢
    have hmem : ∀ x ∈ (List.range b).reverse, x < b := by
      intro x hx
      exact List.mem_range.mp (List.mem_reverse.mp hx)
    obtain ⟨_, hstabD⟩ := udFold_stab b ((List.range b).reverse) (udStepI st b) hmem
    have hpiv : st.P b b ≠ 0 := by
      have hDb := hD b (by omega)
      rw [hstabD b (le_refl b)] at hDb
      obtain ⟨hD', _, _⟩ := udStepI_char st b
      rw [hD' b b, if_pos ⟨rfl, rfl⟩] at hDb
      exact hDb
    have hstep := udInv_step n A b st (by omega) hinv hpiv
    exact ih (udStepI st b) (by omega) hstep (fun m hm => hD m (by omega))

theorem udProduct_entry (n : ℕ) (U D : ℕ → ℕ → ℚ)
    (hDdiag : ∀ r c, ¬ r = c → D r c = 0) (i j : Fin n) :
    (toM n U * toM n D * (toM n U).transpose) i j =
      ∑ m ∈ Finset.range n, U i.1 m * D m m * U j.1 m := by
  rw [Matrix.mul_apply]
  have hinner : ∀ m : Fin n, (toM n U * toM n D) i m = U i.1 m.1 * D m.1 m.1 := by
    intro m
    rw [Matrix.mul_apply]
    rw [Fintype.sum_eq_single m]
    · rfl
    · intro p hpm
      have hz : D p.1 m.1 = 0 := hDdiag p.1 m.1 (fun h => hpm (Fin.ext h))
      show toM n U i p * toM n D p m = 0
      rw [show toM n D p m = D p.1 m.1 from rfl, hz, mul_zero]
  calc ∑ m : Fin n, (toM n U * toM n D) i m * (toM n U).transpose m j
      = ∑ m : Fin n, U i.1 m.1 * D m.1 m.1 * U j.1 m.1 := by
        refine Finset.sum_congr rfl ?_
        intro m _
        rw [hinner m]
        rfl
    _ = ∑ m ∈ Finset.range n, U i.1 m * D m m * U j.1 m :=
        Fin.sum_univ_eq_sum_range (fun m => U i.1 m * D m m * U j.1 m) n

theorem udFold_struct :
    ∀ (l : List ℕ) (st : UDState),
      (∀ r c, c < r → st.U r c = 0) →
      (∀ r c, ¬ r = c → st.D r c = 0) →
      (∀ r c, c < r → (l.foldl udStepI st).U r c = 0) ∧
      (∀ r c, ¬ r = c → (l.foldl udStepI st).D r c = 0) ∧
      (∀ m, st.U m m = 1 → (l.foldl udStepI st).U m m = 1) ∧
      (∀ m, m ∈ l → (l.foldl udStepI st).U m m = 1) := by
  intro l
  induction l with
  | nil =>
    intro st hU hD
    exact ⟨hU, hD, fun m hm => hm, fun m hm => absurd hm (List.not_mem_nil m)⟩
  | cons a t ih =>
    intro st hU hD
    rw [List.foldl_cons]
    obtain ⟨hD', hU', _⟩ := udStepI_char st a
    have hU1 : ∀ r c, c < r → (udStepI st a).U r c = 0 := by
      intro r c hcr
      rw [hU' r c,
        if_neg (show ¬ (c = a ∧ r < a) by intro h; omega),
        if_neg (show ¬ (r = a ∧ c = a) by intro h; omega)]
      exact hU r c hcr
    have hD1 : ∀ r c, ¬ r = c → (udStepI st a).D r c = 0 := by
      intro r c hrc
      rw [hD' r c, if_neg (fun h => hrc (h.1.trans h.2.symm))]
      exact hD r c hrc
    have hDiag1 : ∀ m, st.U m m = 1 → (udStepI st a).U m m = 1 := by
      intro m hm
      rw [hU' m m, if_neg (show ¬ (m = a ∧ m < a) by intro h; omega)]
      by_cases hma : m = a
      · rw [if_pos ⟨hma, hma⟩]
      · rw [if_neg (fun h => hma h.1)]
        exact hm
    have hAa : (udStepI st a).U a a = 1 := by
      rw [hU' a a, if_neg (show ¬ (a = a ∧ a < a) by intro h; omega),
        if_pos ⟨rfl, rfl⟩]
    obtain ⟨ih1, ih2, ih3, ih4⟩ := ih (udStepI st a) hU1 hD1
    refine ⟨ih1, ih2, fun m hm => ih3 m (hDiag1 m hm), ?_⟩
    intro m hm
    rcases List.mem_cons.mp hm with h1 | h2
    · exact ih3 m (by rw [h1]; exact hAa)
    · exact ih4 m h2

/-- Claim C5: with checking enabled, decomposeUD throws "not symmetric" on
every non-symmetric input; on a symmetric input it returns the factors of its
elimination loop, with U unit-upper-triangular and D diagonal, and the
reconstruction U * D * Uᵀ = A holds provided every produced diagonal entry of
D is nonzero. The spec's unconditional reconstruction fails at a zero pivot,
see the counterexample. -/
theorem decomposeUD_correct (n : ℕ) (A : ℕ → ℕ → ℚ) :
    (isSymmetric n A = false →
      decomposeUD n A true = Except.error "not symmetric") ∧
    (isSymmetric n A = true →
      decomposeUD n A true =
        Except.ok ((udLoop n A).U, (udLoop n A).D) ∧
      (∀ r c, c < r → (udLoop n A).U r c = 0) ∧
      (∀ m, m < n → (udLoop n A).U m m = 1) ∧
      (∀ r c, ¬ r = c → (udLoop n A).D r c = 0) ∧
      ((∀ m, m < n → (udLoop n A).D m m ≠ 0) →
        toM n (udLoop n A).U * toM n (udLoop n A).D *
          (toM n (udLoop n A).U).transpose = toM n A)) := by
  have hstruct :
      (∀ r c, c < r → (udLoop n A).U r c = 0) ∧
      (∀ r c, ¬ r = c → (udLoop n A).D r c = 0) ∧
      (∀ m, (⟨A, fun _ _ => 0, fun _ _ => 0⟩ : UDState).U m m = 1 →
        (udLoop n A).U m m = 1) ∧
      (∀ m, m ∈ (List.range n).reverse → (udLoop n A).U m m = 1) :=
    udFold_struct ((List.range n).reverse) ⟨A, fun _ _ => 0, fun _ _ => 0⟩
      (fun _ _ _ => rfl) (fun _ _ _ => rfl)
  obtain ⟨s1, s2, _, s4⟩ := hstruct
  constructor
  · intro hns
    unfold decomposeUD
    rw [if_pos (show (true : Bool) = true ∧ ¬ isSymmetric n A = true from
      ⟨rfl, by rw [hns]; exact Bool.false_ne_true⟩)]
  · intro hs
    refine ⟨?_, s1,
      fun m hm => s4 m (List.mem_reverse.mpr (List.mem_range.mpr hm)),
      s2, ?_⟩
    · unfold decomposeUD
      rw [if_neg (show ¬((true : Bool) = true ∧ ¬ isSymmetric n A = true) from
        fun h => h.2 hs)]
    · intro hpiv
      have hrun : udInv n A 0 (udLoop n A) :=
        udInv_run n A n ⟨A, fun _ _ => 0, fun _ _ => 0⟩ (le_refl n)
          (udInv_base n A) hpiv
      obtain ⟨_, i2, _, _, _⟩ := hrun
      ext i j
      rw [udProduct_entry n _ _ s2 i j]
      show ∑ m ∈ Finset.range n,
        (udLoop n A).U i.1 m * (udLoop n A).D m m * (udLoop n A).U j.1 m
          = A i.1 j.1
      rw [Finset.range_eq_Ico]
      rcases le_or_lt i.1 j.1 with hij | hij
      · exact i2 i.1 j.1 hij (Nat.zero_le _) j.2
      · have hswap : ∑ m ∈ Finset.Ico 0 n,
            (udLoop n A).U i.1 m * (udLoop n A).D m m * (udLoop n A).U j.1 m
            = ∑ m ∈ Finset.Ico 0 n,
            (udLoop n A).U j.1 m * (udLoop n A).D m m * (udLoop n A).U i.1 m := by
          refine Finset.sum_congr rfl ?_
          intro m _
          ring
        rw [hswap, i2 j.1 i.1 (le_of_lt hij) (Nat.zero_le _) i.2]
        exact isSymmetric_spec n A hs j.1 i.1 j.2 i.2 hij

/-- The 2x2 symmetric input used to exercise the nonzero-pivot path of
decomposeUD. -/
def udWitA : ℕ → ℕ → ℚ :=
  fun i j => if i = 0 ∧ j = 0 then 2 else 1

/-- Witness for the C5 theorem: on the symmetric input [[2, 1], [1, 1]] both
pivots are nonzero and the produced factors reconstruct the input. -/
theorem decomposeUD_correct_witness :
    toM 2 (udLoop 2 udWitA).U * toM 2 (udLoop 2 udWitA).D *
      (toM 2 (udLoop 2 udWitA).U).transpose = toM 2 udWitA :=
  ((decomposeUD_correct 2 udWitA).2 (by with_unfolding_all decide)).2.2.2.2
    (by
      intro m hm
      interval_cases m
      · with_unfolding_all decide
      · with_unfolding_all decide)

/-- Symmetric 2x2 input with a zero pivot: `[[0, 1], [1, 0]]`. In C++ the
division by D(1,1) = 0 yields inf/NaN; in the exact embedding it yields the
junk value 0. Either way the produced factors fail to reconstruct A and no
exception is thrown. -/
def udCexA : ℕ → ℕ → ℚ :=
  fun i j => if i = j then 0 else 1

theorem decomposeUD_zero_pivot_cex :
    isSymmetric 2 udCexA = true ∧
    decomposeUD 2 udCexA true =
      Except.ok ((udLoop 2 udCexA).U, (udLoop 2 udCexA).D) ∧
    ¬ (toM 2 (udLoop 2 udCexA).U * toM 2 (udLoop 2 udCexA).D *
        (toM 2 (udLoop 2 udCexA).U).transpose = toM 2 udCexA) := by
  refine ⟨by with_unfolding_all decide, ?_, ?_⟩
  · unfold decomposeUD
    rw [if_neg (show ¬((true : Bool) = true ∧ ¬ isSymmetric 2 udCexA = true) from
      fun h => h.2 (by with_unfolding_all decide))]
  · intro h
    have h01 := congrFun (congrFun h (1 : Fin 2)) (0 : Fin 2)
    have hL : (toM 2 (udLoop 2 udCexA).U * toM 2 (udLoop 2 udCexA).D *
        (toM 2 (udLoop 2 udCexA).U).transpose) (1 : Fin 2) (0 : Fin 2) = 0 := by
      with_unfolding_all decide
    have hR : toM 2 udCexA (1 : Fin 2) (0 : Fin 2) = 1 := by
      with_unfolding_all decide
    rw [hL, hR] at h01
    exact absurd h01 (by with_unfolding_all decide)

/- ============ C8: the two determinant implementations ============ -/

/-- State of the newer library's decomposeLUP (GPS_SP.h:4387-4443): the two
halves L and U of the working matrix `LU`, plus the pivot-exchange counter.
Entries outside the n x n square are never read by the algorithm. -/
structure LUState where
  L : ℕ → ℕ → ℚ
  U : ℕ → ℕ → ℚ
  piv : ℕ

/-- Innermost elimination loop body:
`U(i2, j2) -= L(i2, i) * U(i, j2)` (GPS_SP.h:4436). -/
def lupStepJ2 (i i2 : ℕ) (st : LUState) (j2 : ℕ) : LUState :=
  { st with U := mupd st.U i2 j2 (st.U i2 j2 - st.L i2 i * st.U i j2) }

/-- Row loop body of the elimination (GPS_SP.h:4432-4438):
`L(i2, i) = U(i2, i) / U(i, i); U(i2, i) = 0;` then the j2 loop. -/
def lupStepI2 (n i : ℕ) (st : LUState) (i2 : ℕ) : LUState :=
  (List.range' (i + 1) (n - (i + 1))).foldl (lupStepJ2 i i2)
    { st with L := mupd st.L i2 i (st.U i2 i / st.U i i),
              U := mupd st.U i2 i 0 }

/-- Zero-pivot handling (GPS_SP.h:4412-4431): when `U(i, i) == 0`, scan row i
for the first column j > i with `U(i, j) != 0`; if none exists up to n, throw
"LU decomposition cannot be performed"; otherwise exchange columns i and j of
U (in every row) and count the exchange in pivot_num. -/
def lupPivot (n i : ℕ) (st : LUState) : Except String LUState :=
  if st.U i i = 0 then
    match (List.range' (i + 1) (n - (i + 1))).find?
        (fun j => decide (¬ st.U i j = 0)) with
    | none => Except.error "LU decomposition cannot be performed"
    | some j => Except.ok
        { st with
          U := fun r c => if c = i then st.U r j
                          else if c = j then st.U r i
                          else st.U r c,
          piv := st.piv + 1 }
  else Except.ok st

/-- One iteration of the Gaussian-elimination loop (GPS_SP.h:4411-4439):
pivot handling for column i, then elimination of the rows below row i. -/
def lupStep (n : ℕ) (st : LUState) (i : ℕ) : Except String LUState := do
  let stp ← lupPivot n i st
  return (List.range' (i + 1) (n - (i + 1))).foldl (lupStepI2 n i) stp

/-- Matrix::decomposeLUP (GPS_SP.h:4387-4443) on an n x n matrix. The C++
initialization loop copies the whole square of A into the U half and writes
the L half as identity on and above the diagonal (the strictly lower part of L
is left blank and fully overwritten during elimination; the blank is modelled
as 0, a value the algorithm never reads). The isSquare check is vacuous for
the square embedding. -/
def decomposeLUP (n : ℕ) (A : ℕ → ℕ → ℚ) : Except String LUState :=
  (List.range n).foldlM (lupStep n)
    { L := fun i j => if i = j then 1 else 0, U := A, piv := 0 }

/-- Matrix::determinant_LU (GPS_SP.h:4456-4464): run decomposeLUP, then
`res = (pivot_num % 2 == 0 ? 1 : -1)` and `res *= LU(i,i) * LU(i,j)` for
i < n with j running over the U half, i.e. res accumulates L(i,i) * U(i,i). -/
def determinant_LU (n : ℕ) (A : ℕ → ℕ → ℚ) : Except String ℚ := do
  let st ← decomposeLUP n A
  return (List.range n).foldl (fun res i => res * (st.L i i * st.U i i))
    (if st.piv % 2 = 0 then 1 else -1)

/-- Matrix::coMatrix of the older library (part_000:1065-1092): the minor of A
obtained by deleting row `row` and column `col`. -/
def coMat (A : ℕ → ℕ → ℚ) (row col : ℕ) : ℕ → ℕ → ℚ :=
  fun i j => A (if i < row then i else i + 1) (if j < col then j else j + 1)

/-- Matrix::determinant of the older library (part_000:1102-1117): for a 1x1
matrix the single entry; otherwise cofactor expansion along column 0 with a
running sign, skipping rows whose column-0 entry is zero. A 0x0 matrix takes
the `else` branch, whose loop body never runs, and returns the initial
`sum = 0`. -/
def determinant_old : ℕ → (ℕ → ℕ → ℚ) → ℚ
  | 0, _ => 0
  | 1, A => A 0 0
  | (m + 2), A =>
    ((List.range (m + 2)).foldl
      (fun p i =>
        (if ¬ A i 0 = 0 then
          p.1 + A i 0 * determinant_old (m + 1) (coMat A i 0) * p.2
         else p.1,
         -p.2))
      ((0 : ℚ), (1 : ℚ))).1

theorem signFold_char (a v : ℕ → ℚ) (k : ℕ) :
    (List.range k).foldl
      (fun p i => (if ¬ a i = 0 then p.1 + a i * v i * p.2 else p.1, -p.2))
      ((0 : ℚ), (1 : ℚ)) =
      (∑ i ∈ Finset.range k, a i * v i * (-1) ^ i, (-1) ^ k) := by
  induction k with
  | zero => simp
  | succ k ih =>
    rw [List.range_succ, List.foldl_append, ih, List.foldl_cons, List.foldl_nil]
    by_cases ha : a k = 0
    · rw [Finset.sum_range_succ]
      dsimp only
      rw [if_neg (show ¬ ¬ a k = 0 from fun h => h ha), ha, pow_succ]
      rw [Prod.mk.injEq]
      constructor
      · ring
      · ring
    · rw [Finset.sum_range_succ]
      dsimp only
      rw [if_pos ha, pow_succ]
      rw [Prod.mk.injEq]
      constructor
      · ring
      · ring

theorem coMat_toM (m : ℕ) (A : ℕ → ℕ → ℚ) (i : Fin (m + 2)) :
    (toM (m + 2) A).submatrix i.succAbove Fin.succ =
      toM (m + 1) (coMat A i.1 0) := by
  ext r c
  simp only [Matrix.submatrix_apply, toM, Matrix.of_apply, coMat]
  rw [if_neg (show ¬ c.1 < 0 by omega)]
  by_cases hr : r.1 < i.1
  · rw [Fin.succAbove_of_castSucc_lt i r (by rw [Fin.lt_def]; exact hr),
      if_pos hr]
    rfl
  · rw [Fin.succAbove_of_le_castSucc i r
        (by rw [Fin.le_def, Fin.coe_castSucc]; omega),
      if_neg hr]
    rfl

theorem determinant_old_eq_det :
    ∀ (n : ℕ) (A : ℕ → ℕ → ℚ), 1 ≤ n → determinant_old n A = (toM n A).det := by
  intro n
  induction n with
  | zero => intro A h; omega
  | succ n ih =>
    intro A _
    match n with
    | 0 =>
      rw [Matrix.det_fin_one]
      rfl
    | Nat.succ m =>
      simp only [determinant_old]
      rw [signFold_char (fun i => A i 0)
        (fun i => determinant_old (m + 1) (coMat A i 0)) (m + 2)]
      rw [Matrix.det_succ_column_zero (toM (m + 2) A)]
      have hterm : ∀ i : Fin (m + 2),
          (-1 : ℚ) ^ (i : ℕ) * toM (m + 2) A i 0 *
            ((toM (m + 2) A).submatrix i.succAbove Fin.succ).det =
          A i.1 0 * determinant_old (m + 1) (coMat A i.1 0) * (-1) ^ (i : ℕ) := by
        intro i
        rw [coMat_toM m A i, ← ih (coMat A i.1 0) (by omega)]
        have : toM (m + 2) A i 0 = A i.1 0 := by
          simp [toM]
        rw [this]
        ring
      rw [Finset.sum_congr rfl (fun i _ => hterm i)]
      exact (Fin.sum_univ_eq_sum_range
        (fun k => A k 0 * determinant_old (m + 1) (coMat A k 0) * (-1) ^ k)
        (m + 2)).symm

theorem lupStepJ2_fold_char (i i2 : ℕ) (hne : ¬ i = i2) :
    ∀ (l : List ℕ) (st : LUState), l.Nodup →
      ((l.foldl (lupStepJ2 i i2) st).L = st.L) ∧
      ((l.foldl (lupStepJ2 i i2) st).piv = st.piv) ∧
      (∀ r c, (l.foldl (lupStepJ2 i i2) st).U r c =
        if r = i2 ∧ c ∈ l then st.U r c - st.L i2 i * st.U i c else st.U r c) := by
  intro l
  induction l with
  | nil =>
    intro st _
    refine ⟨rfl, rfl, ?_⟩
    intro r c
    rw [if_neg (fun h => (List.not_mem_nil c) h.2)]
    rfl
  | cons a t ih =>
    intro st hnd
    rw [List.foldl_cons]
    obtain ⟨ihL, ihpiv, ihU⟩ := ih (lupStepJ2 i i2 st a) (List.Nodup.of_cons hnd)
    have hstL : (lupStepJ2 i i2 st a).L = st.L := rfl
    have hstU : ∀ r c, (lupStepJ2 i i2 st a).U r c =
        if r = i2 ∧ c = a then st.U i2 a - st.L i2 i * st.U i a else st.U r c := by
      intro r c
      show mupd st.U i2 a (st.U i2 a - st.L i2 i * st.U i a) r c = _
      by_cases h : r = i2 ∧ c = a
      · rw [if_pos h, mupd, if_pos ⟨h.1, h.2⟩]
      · rw [if_neg h, mupd, if_neg (fun hc => h ⟨hc.1, hc.2⟩)]
    have hna : a ∉ t := (List.nodup_cons.mp hnd).1
    refine ⟨by rw [ihL, hstL], by rw [ihpiv]; rfl, ?_⟩
    intro r c
    rw [ihU r c]
    by_cases hmem : r = i2 ∧ c ∈ t
    · rw [if_pos hmem,
        if_pos (show r = i2 ∧ c ∈ a :: t from ⟨hmem.1, List.mem_cons_of_mem a hmem.2⟩)]
      have hca : ¬ c = a := fun h => hna (h ▸ hmem.2)
      rw [hstL, hstU r c, if_neg (fun h => hca h.2),
        hstU i c, if_neg (fun h => hne h.1)]
    · rw [if_neg hmem, hstU r c]
      by_cases hra : r = i2 ∧ c = a
      · rw [if_pos hra,
          if_pos (show r = i2 ∧ c ∈ a :: t from ⟨hra.1, hra.2 ▸ List.mem_cons_self a t⟩),
          hra.2, hra.1]
      · rw [if_neg hra]
        rw [if_neg (show ¬ (r = i2 ∧ c ∈ a :: t) from ?_)]
        intro hc
        rcases List.mem_cons.mp hc.2 with h1 | h2
        · exact hra ⟨hc.1, h1⟩
        · exact hmem ⟨hc.1, h2⟩

theorem lupStepI2_char (n i : ℕ) (st : LUState) (a : ℕ) (hia : i < a) :
    ((lupStepI2 n i st a).piv = st.piv) ∧
    (∀ r c, (lupStepI2 n i st a).L r c =
      if r = a ∧ c = i then st.U a i / st.U i i else st.L r c) ∧
    (∀ r c, (lupStepI2 n i st a).U r c =
      if r = a then
        (if c = i then 0
         else if i + 1 ≤ c ∧ c < n then st.U a c - st.U a i / st.U i i * st.U i c
         else st.U a c)
      else st.U r c) := by
  have hne : ¬ i = a := by omega
  obtain ⟨hL, hpiv, hU⟩ := lupStepJ2_fold_char i a hne
    (List.range' (i + 1) (n - (i + 1)))
    { st with L := mupd st.L a i (st.U a i / st.U i i), U := mupd st.U a i 0 }
    (List.nodup_range' (i + 1) (n - (i + 1)))
  refine ⟨hpiv, ?_, ?_⟩
  · intro r c
    rw [show (lupStepI2 n i st a).L = _ from hL]
    show mupd st.L a i (st.U a i / st.U i i) r c = _
    by_cases h : r = a ∧ c = i
    · rw [mupd, if_pos h]
    · rw [mupd, if_neg h]
  · intro r c
    rw [show (lupStepI2 n i st a).U r c = _ from hU r c]
    have hmem : c ∈ List.range' (i + 1) (n - (i + 1)) ↔ i + 1 ≤ c ∧ c < n := by
      rw [List.mem_range'_1]
      omega
    by_cases hr : r = a
    · rw [if_pos hr]
      by_cases hci : c = i
      · rw [if_neg (show ¬ (r = a ∧ c ∈ _) from ?_), if_pos hci]
        · show mupd st.U a i 0 r c = 0
          rw [mupd, if_pos ⟨hr, hci⟩]
        · intro h
          exact absurd ((hmem.mp h.2).1) (by omega)
      · by_cases hcr : i + 1 ≤ c ∧ c < n
        · rw [if_pos ⟨hr, hmem.mpr hcr⟩, if_neg hci, if_pos hcr]
          show mupd st.U a i 0 r c -
            mupd st.L a i (st.U a i / st.U i i) a i * mupd st.U a i 0 i c = _
          rw [mupd, if_neg (fun h => hci h.2), mupd, if_pos ⟨rfl, rfl⟩,
            mupd, if_neg (fun h => hne h.1), hr]
        · rw [if_neg (fun h => hcr (hmem.mp h.2)), if_neg hci, if_neg hcr]
          show mupd st.U a i 0 r c = st.U a c
          rw [mupd, if_neg (fun h => hci h.2), hr]
    · rw [if_neg (fun h => hr h.1), if_neg hr]
      show mupd st.U a i 0 r c = st.U r c
      rw [mupd, if_neg (fun h => hr h.1)]

theorem lupStepI2_fold_char (n i : ℕ) :
    ∀ (l : List ℕ) (st : LUState), l.Nodup → (∀ x ∈ l, i < x) →
      ((l.foldl (lupStepI2 n i) st).piv = st.piv) ∧
      (∀ r c, (l.foldl (lupStepI2 n i) st).L r c =
        if r ∈ l ∧ c = i then st.U r i / st.U i i else st.L r c) ∧
      (∀ r c, (l.foldl (lupStepI2 n i) st).U r c =
        if r ∈ l then
          (if c = i then 0
           else if i + 1 ≤ c ∧ c < n then st.U r c - st.U r i / st.U i i * st.U i c
           else st.U r c)
        else st.U r c) := by
  intro l
  induction l with
  | nil =>
    intro st _ _
    refine ⟨rfl, ?_, ?_⟩
    · intro r c
      rw [if_neg (fun h => (List.not_mem_nil r) h.1)]
      rfl
    · intro r c
      rw [if_neg (List.not_mem_nil r)]
      rfl
  | cons a t ih =>
    intro st hnd hgt
    have hia : i < a := hgt a (List.mem_cons_self a t)
    have hna : a ∉ t := (List.nodup_cons.mp hnd).1
    rw [List.foldl_cons]
    obtain ⟨spiv, sL, sU⟩ := lupStepI2_char n i st a hia
    obtain ⟨ihpiv, ihL, ihU⟩ := ih (lupStepI2 n i st a) (List.Nodup.of_cons hnd)
      (fun x hx => hgt x (List.mem_cons_of_mem a hx))
    have hUi : ∀ c, (lupStepI2 n i st a).U i c = st.U i c := by
      intro c
      rw [sU i c, if_neg (fun h => absurd h (by omega))]
    have hUri : ∀ r, r ∈ t → (lupStepI2 n i st a).U r i = st.U r i := by
      intro r hr
      rw [sU r i]
      by_cases hra : r = a
      · exact absurd (hra ▸ hr) hna
      · rw [if_neg hra]
    refine ⟨by rw [ihpiv, spiv], ?_, ?_⟩
    · intro r c
      rw [ihL r c]
      by_cases hrt : r ∈ t ∧ c = i
      · rw [if_pos hrt, hUri r hrt.1, hUi i,
          if_pos ⟨List.mem_cons_of_mem a hrt.1, hrt.2⟩]
      · rw [if_neg hrt, sL r c]
        by_cases hrac : r = a ∧ c = i
        · rw [if_pos hrac,
            if_pos (show r ∈ a :: t ∧ c = i from
              ⟨by rw [hrac.1]; exact List.mem_cons_self a t, hrac.2⟩),
            hrac.1]
        · rw [if_neg hrac,
            if_neg (show ¬ (r ∈ a :: t ∧ c = i) from ?_)]
          intro hc
          rcases List.mem_cons.mp hc.1 with h1 | h2
          · exact hrac ⟨h1, hc.2⟩
          · exact hrt ⟨h2, hc.2⟩
    · intro r c
      rw [ihU r c]
      by_cases hrt : r ∈ t
      · rw [if_pos hrt, if_pos (List.mem_cons_of_mem a hrt)]
        by_cases hci : c = i
        · rw [if_pos hci, if_pos hci]
        · rw [if_neg hci, if_neg hci]
          by_cases hcn : i + 1 ≤ c ∧ c < n
          · rw [if_pos hcn, if_pos hcn, hUri r hrt, hUi i, hUi c]
            have : (lupStepI2 n i st a).U r c = st.U r c := by
              rw [sU r c]
              by_cases hra : r = a
              · exact absurd (hra ▸ hrt) hna
              · rw [if_neg hra]
            rw [this]
          · rw [if_neg hcn, if_neg hcn, sU r c]
            by_cases hra : r = a
            · exact absurd (hra ▸ hrt) hna
            · rw [if_neg hra]
      · rw [if_neg hrt, sU r c]
        by_cases hra : r = a
        · rw [if_pos hra,
            if_pos (show r ∈ a :: t from by rw [hra]; exact List.mem_cons_self a t),
            hra]
        · rw [if_neg hra,
            if_neg (show ¬ r ∈ a :: t from ?_)]
          intro hc
          rcases List.mem_cons.mp hc with h1 | h2
          · exact hra h1
          · exact hrt h2

theorem lupStepI2_det (n i : ℕ) (hin : i < n) (st : LUState) (a : ℕ)
    (hia : i < a) (han : a < n)
    (hrow : ∀ c, c < i → st.U i c = 0) (hpiv : ¬ st.U i i = 0) :
    (toM n (lupStepI2 n i st a).U).det = (toM n st.U).det := by
  obtain ⟨_, _, sU⟩ := lupStepI2_char n i st a hia
  have hM : toM n (lupStepI2 n i st a).U =
      (toM n st.U).updateRow ⟨a, han⟩
        (toM n st.U ⟨a, han⟩ + (-(st.U a i / st.U i i)) • toM n st.U ⟨i, hin⟩) := by
    ext r c
    by_cases hr : r = (⟨a, han⟩ : Fin n)
    · rw [hr, Matrix.updateRow_self]
      show (lupStepI2 n i st a).U a c.1 =
        toM n st.U ⟨a, han⟩ c + (-(st.U a i / st.U i i)) * toM n st.U ⟨i, hin⟩ c
      rw [sU a c.1, if_pos rfl]
      show _ = st.U a c.1 + (-(st.U a i / st.U i i)) * st.U i c.1
      by_cases hci : c.1 = i
      · rw [if_pos hci, hci, neg_mul, div_mul_cancel₀ _ hpiv]
        ring
      · rw [if_neg hci]
        by_cases hlt : c.1 < i
        · rw [if_neg (show ¬ (i + 1 ≤ c.1 ∧ c.1 < n) from fun h => by omega),
            hrow c.1 hlt]
          ring
        · rw [if_pos (show i + 1 ≤ c.1 ∧ c.1 < n from ⟨by omega, c.2⟩)]
          ring
    · rw [Matrix.updateRow_ne hr]
      show (lupStepI2 n i st a).U r.1 c.1 = st.U r.1 c.1
      rw [sU r.1 c.1,
        if_neg (show ¬ r.1 = a from fun h => hr (Fin.ext h))]
  rw [hM]
  exact Matrix.det_updateRow_add_smul_self (toM n st.U)
    (show (⟨a, han⟩ : Fin n) ≠ ⟨i, hin⟩ from
      fun h => absurd (show a = i from congrArg Fin.val h) (by omega)) _

theorem lupElim_fold_det (n i : ℕ) (hin : i < n) :
    ∀ (l : List ℕ) (st : LUState), (∀ x ∈ l, i < x ∧ x < n) →
      (∀ c, c < i → st.U i c = 0) → ¬ st.U i i = 0 →
      (toM n (l.foldl (lupStepI2 n i) st).U).det = (toM n st.U).det := by
  intro l
  induction l with
  | nil => intro st _ _ _; rfl
  | cons a t ih =>
    intro st hb hrow hpiv
    have hia : i < a := (hb a (List.mem_cons_self a t)).1
    have han : a < n := (hb a (List.mem_cons_self a t)).2
    rw [List.foldl_cons]
    obtain ⟨_, _, sU⟩ := lupStepI2_char n i st a hia
    have hUi : ∀ c, (lupStepI2 n i st a).U i c = st.U i c := by
      intro c
      rw [sU i c, if_neg (fun h => absurd h (by omega))]
    rw [ih (lupStepI2 n i st a) (fun x hx => hb x (List.mem_cons_of_mem a hx))
      (fun c hc => by rw [hUi c]; exact hrow c hc)
      (by rw [hUi i]; exact hpiv)]
    exact lupStepI2_det n i hin st a hia han hrow hpiv

theorem swap_toM (n : ℕ) (U : ℕ → ℕ → ℚ) (i j : ℕ) (hi : i < n) (hj : j < n)
    (_hij : ¬ i = j) :
    toM n (fun r c => if c = i then U r j else if c = j then U r i else U r c) =
      (toM n U).submatrix id (Equiv.swap ⟨i, hi⟩ ⟨j, hj⟩) := by
  ext r c
  show (if c.1 = i then U r.1 j else if c.1 = j then U r.1 i else U r.1 c.1) =
    U r.1 ((Equiv.swap (⟨i, hi⟩ : Fin n) ⟨j, hj⟩) c).1
  by_cases hci : c.1 = i
  · rw [if_pos hci,
      show c = (⟨i, hi⟩ : Fin n) from Fin.ext hci, Equiv.swap_apply_left]
  · rw [if_neg hci]
    by_cases hcj : c.1 = j
    · rw [if_pos hcj,
        show c = (⟨j, hj⟩ : Fin n) from Fin.ext hcj, Equiv.swap_apply_right]
    · rw [if_neg hcj,
        Equiv.swap_apply_of_ne_of_ne
          (fun h => hci (congrArg Fin.val h))
          (fun h => hcj (congrArg Fin.val h))]

theorem lupPivot_ok_char (n i : ℕ) (hin : i < n) (st stp : LUState)
    (h : lupPivot n i st = Except.ok stp) :
    stp.L = st.L ∧
    ¬ stp.U i i = 0 ∧
    (∀ r c, c < i → stp.U r c = st.U r c) ∧
    ((-1 : ℚ)) ^ stp.piv * (toM n stp.U).det =
      ((-1 : ℚ)) ^ st.piv * (toM n st.U).det := by
  by_cases hUii : st.U i i = 0
  · rw [lupPivot, if_pos hUii] at h
    rcases hfind : (List.range' (i + 1) (n - (i + 1))).find?
        (fun j => decide (¬ st.U i j = 0)) with _ | j
    · rw [hfind] at h
      cases h
    · rw [hfind] at h
      have hj : j ∈ List.range' (i + 1) (n - (i + 1)) :=
        List.mem_of_find?_eq_some hfind
      have hjb : i + 1 ≤ j ∧ j < n := by
        have := List.mem_range'_1.mp hj
        omega
      have hp := List.find?_some hfind
      have hjnz : ¬ st.U i j = 0 := of_decide_eq_true hp
      have hstp : stp = { st with
          U := fun r c => if c = i then st.U r j
                          else if c = j then st.U r i
                          else st.U r c,
          piv := st.piv + 1 } := by
        cases h
        rfl
      have hij : ¬ i = j := by omega
      refine ⟨by rw [hstp], ?_, ?_, ?_⟩
      · rw [hstp]
        show ¬ (if i = i then st.U i j else if i = j then st.U i i else st.U i i) = 0
        rw [if_pos rfl]
        exact hjnz
      · intro r c hc
        rw [hstp]
        show (if c = i then st.U r j else if c = j then st.U r i else st.U r c) =
          st.U r c
        rw [if_neg (show ¬ c = i by omega), if_neg (show ¬ c = j by omega)]
      · rw [hstp]
        show ((-1 : ℚ)) ^ (st.piv + 1) *
          (toM n (fun r c => if c = i then st.U r j
                             else if c = j then st.U r i
                             else st.U r c)).det = _
        rw [swap_toM n st.U i j hin hjb.2 hij,
          Matrix.det_permute' (Equiv.swap ⟨i, hin⟩ ⟨j, hjb.2⟩) (toM n st.U),
          Equiv.Perm.sign_swap
            (show (⟨i, hin⟩ : Fin n) ≠ ⟨j, hjb.2⟩ from
              fun hf => hij (congrArg Fin.val hf))]
        push_cast
        ring
  · rw [lupPivot, if_neg hUii] at h
    cases h
    exact ⟨rfl, hUii, fun _ _ _ => rfl, rfl⟩

/-- Invariant of the Gaussian-elimination loop after the steps 0..i-1: the
sign-corrected determinant of the U half equals det A, the first i columns of
U are zero below the diagonal, and the diagonal of L is 1. -/
def lupInv (n : ℕ) (A : ℕ → ℕ → ℚ) (i : ℕ) (st : LUState) : Prop :=
  ((-1 : ℚ)) ^ st.piv * (toM n st.U).det = (toM n A).det ∧
  (∀ r c, c < i → c < r → r < n → st.U r c = 0) ∧
  (∀ k, st.L k k = 1)

theorem lupStep_inv (n : ℕ) (A : ℕ → ℕ → ℚ) (i : ℕ) (hin : i < n)
    (st st1 : LUState) (hInv : lupInv n A i st)
    (h : lupStep n st i = Except.ok st1) : lupInv n A (i + 1) st1 := by
  obtain ⟨hdet, hz, hL⟩ := hInv
  rcases hp : lupPivot n i st with e | stp
  · unfold lupStep at h
    rw [hp] at h
    exact absurd h (by intro hc; cases hc)
  · unfold lupStep at h
    rw [hp] at h
    have hst1 : Except.ok
        ((List.range' (i + 1) (n - (i + 1))).foldl (lupStepI2 n i) stp) =
        Except.ok st1 := h
    have hfold := Except.ok.inj hst1
    obtain ⟨pL, pUii, pUc, pdet⟩ := lupPivot_ok_char n i hin st stp hp
    have hb : ∀ x ∈ List.range' (i + 1) (n - (i + 1)), i < x ∧ x < n := by
      intro x hx
      have := List.mem_range'_1.mp hx
      omega
    obtain ⟨fpiv, fL, fU⟩ := lupStepI2_fold_char n i
      (List.range' (i + 1) (n - (i + 1))) stp
      (List.nodup_range' (i + 1) (n - (i + 1))) (fun x hx => (hb x hx).1)
    have hprow : ∀ c, c < i → stp.U i c = 0 := by
      intro c hc
      rw [pUc i c hc]
      exact hz i c hc hc hin
    refine ⟨?_, ?_, ?_⟩
    · rw [← hfold, fpiv,
        lupElim_fold_det n i hin (List.range' (i + 1) (n - (i + 1))) stp hb
          hprow pUii, pdet]
      exact hdet
    · intro r c hc hcr hrn
      rw [← hfold, fU r c]
      by_cases hci : c = i
      · have hrl : r ∈ List.range' (i + 1) (n - (i + 1)) := by
          rw [List.mem_range'_1]
          omega
        rw [if_pos hrl, if_pos hci]
      · have hci' : c < i := by omega
        have hval : stp.U r c = 0 := by
          rw [pUc r c hci']
          exact hz r c hci' hcr hrn
        by_cases hrl : r ∈ List.range' (i + 1) (n - (i + 1))
        · rw [if_pos hrl, if_neg hci,
            if_neg (show ¬ (i + 1 ≤ c ∧ c < n) from fun hcc => by omega)]
          exact hval
        · rw [if_neg hrl]
          exact hval
    · intro k
      rw [← hfold, fL k k]
      rw [if_neg (show ¬ (k ∈ List.range' (i + 1) (n - (i + 1)) ∧ k = i) from ?_)]
      · rw [pL]
        exact hL k
      · intro hc
        have := List.mem_range'_1.mp hc.1
        omega

theorem lup_fold_inv (n : ℕ) (A : ℕ → ℕ → ℚ) :
    ∀ (cnt i : ℕ) (st : LUState), i + cnt = n → lupInv n A i st →
      ∀ st', (List.range' i cnt).foldlM (lupStep n) st = Except.ok st' →
        lupInv n A n st' := by
  intro cnt
  induction cnt with
  | zero =>
    intro i st hi hInv st' h
    have hok : Except.ok st = Except.ok st' := h
    have hi' : i = n := by omega
    rw [← Except.ok.inj hok]
    rw [hi'] at hInv
    exact hInv
  | succ cnt ih =>
    intro i st hi hInv st' h
    rw [List.range'_succ] at h
    have h' : (lupStep n st i >>= fun st1 =>
        (List.range' (i + 1) cnt).foldlM (lupStep n) st1) = Except.ok st' := h
    rcases hs : lupStep n st i with e | st1
    · rw [hs] at h'
      exact absurd h' (by intro hc; cases hc)
    · rw [hs] at h'
      have h'' : (List.range' (i + 1) cnt).foldlM (lupStep n) st1 =
          Except.ok st' := h'
      exact ih (i + 1) st1 (by omega)
        (lupStep_inv n A i (by omega) st st1 hInv hs) st' h''

theorem lupProdFold (st : LUState) (hL : ∀ k, st.L k k = 1) :
    ∀ (k : ℕ) (s : ℚ),
      (List.range k).foldl (fun res i => res * (st.L i i * st.U i i)) s
        = s * ∏ i ∈ Finset.range k, st.U i i := by
  intro k
  induction k with
  | zero => intro s; simp
  | succ k ih =>
    intro s
    rw [List.range_succ, List.foldl_append, ih s, List.foldl_cons,
      List.foldl_nil, Finset.prod_range_succ, hL k]
    ring

theorem lupSign (p : ℕ) : (if p % 2 = 0 then (1 : ℚ) else -1) = (-1) ^ p := by
  rcases Nat.even_or_odd p with he | ho
  · rw [if_pos (Nat.even_iff.mp he), Even.neg_one_pow he]
  · have := Nat.odd_iff.mp ho
    rw [if_neg (by omega : ¬ p % 2 = 0), Odd.neg_one_pow ho]

/-- Claim C8: whenever the newer library's LU-based determinant succeeds, it
agrees with the older library's recursive cofactor determinant — for matrices
of dimension at least 1. At dimension 0 both succeed but disagree (the LU
version returns the empty product 1, the cofactor version returns its initial
sum 0), so the claim's universal quantification needs the n ≥ 1 restriction
shown by the counterexample. -/
theorem determinant_refinement (n : ℕ) (A : ℕ → ℕ → ℚ) (d : ℚ) (hn : 1 ≤ n)
    (h : determinant_LU n A = Except.ok d) : d = determinant_old n A := by
  rcases hd : decomposeLUP n A with e | st
  · unfold determinant_LU at h
    rw [hd] at h
    exact absurd h (by intro hc; cases hc)
  · unfold determinant_LU at h
    rw [hd] at h
    have h' : Except.ok ((List.range n).foldl
        (fun res i => res * (st.L i i * st.U i i))
        (if st.piv % 2 = 0 then 1 else -1)) = Except.ok d := h
    have hdv := Except.ok.inj h'
    have hfold : (List.range' 0 n).foldlM (lupStep n)
        { L := fun i j => if i = j then (1 : ℚ) else 0, U := A, piv := 0 } =
        Except.ok st := by
      rw [← List.range_eq_range' n]
      exact hd
    have hInv : lupInv n A n st := by
      refine lup_fold_inv n A n 0
        { L := fun i j => if i = j then (1 : ℚ) else 0, U := A, piv := 0 }
        (by omega) ⟨?_, ?_, ?_⟩ st hfold
      · rw [pow_zero, one_mul]
      · intro r c hc _ _
        omega
      · intro k
        show (if k = k then (1 : ℚ) else 0) = 1
        rw [if_pos rfl]
    obtain ⟨hdet, hz, hL⟩ := hInv
    have htri : (toM n st.U).det = ∏ i ∈ Finset.range n, st.U i i := by
      rw [Matrix.det_of_upperTriangular
        (show Matrix.BlockTriangular (toM n st.U) id from ?_)]
      · exact Fin.prod_univ_eq_prod_range (fun i => st.U i i) n
      · intro r c hrc
        exact hz r.1 c.1 c.2 hrc r.2
    rw [← hdv, lupProdFold st hL n _, lupSign st.piv,
      determinant_old_eq_det n A hn, ← hdet, htri]

/-- 2x2 input `[[0, 1], [2, 3]]` exercising the column-exchange path of
decomposeLUP (pivot_num = 1). -/
def luWitA : ℕ → ℕ → ℚ :=
  fun i j => if i = 0 then (if j = 0 then 0 else 1) else (if j = 0 then 2 else 3)

theorem determinant_refinement_witness :
    (-2 : ℚ) = determinant_old 2 luWitA :=
  determinant_refinement 2 luWitA (-2) (by omega) (by with_unfolding_all rfl)

theorem determinant_zero_dim_cex :
    determinant_LU 0 (fun _ _ => 0) = Except.ok 1 ∧
    determinant_old 0 (fun _ _ => 0) = 0 ∧ ¬ (1 : ℚ) = 0 := by
  refine ⟨by with_unfolding_all rfl, by with_unfolding_all rfl,
    by norm_num⟩
